import Mathlib

/-!
# Verification of the nestext NestedText decoder (npillmayer/nestext)

This file is a shallow embedding of the decoding core of the `nestext` Go
package: the line scanner (`scan.go`, `linebuf.go`), the recursive-descent
line parser and the inline-item automaton (`parse.go`, latest revision),
together with proofs settling the frozen claims about the specification.

Modelling conventions:
* Go `interface{}` result values become the inductive `GoVal`
  (`nil | string | []interface{} | map[string]interface{}`); Go maps are
  modelled as association lists with insert-or-overwrite semantics and
  insertion order, which is observation-equivalent for the claims (Go maps
  are unordered).
* Go `(result, err)` returns become pairs of `Option GoVal`/`Option NTError`;
  Go runtime panics (available in the source: the "mixed item" panic in
  `ReduceToItem`, the "un-initialized parser stack" panic in `pushKV`,
  slice/index range panics, nil dereference of `tos()`, and the
  `parseAny` default-branch panic) are modelled as `Except.error` with a
  `GoPanic` tag naming the panic site.
* Loops and the mutual recursion of the line parser are driven by a fuel
  parameter; running out of fuel is the distinguished outcome
  `GoPanic.outOfFuel` (the Go code has no depth limit).
* Byte positions (`TextPosition`, `Marker`, slicing of `p.Text`) are
  modelled faithfully as UTF-8 byte offsets over `List Char`.
* Source line/column numbers carried inside tokens and errors are not
  modelled (no claim concerns them); error values keep their code and
  message.  The `%q`/`%#U` formatting of the illegal-tag message is
  simplified to a fixed message; claims compare error codes.
-/

namespace NestText

/-- Go `interface{}` values produced by the decoder: `nil`, `string`,
`[]interface{}` and `map[string]interface{}`. -/
inductive GoVal where
  | null : GoVal
  | str (s : String) : GoVal
  | list (items : List GoVal) : GoVal
  | dict (entries : List (String × GoVal)) : GoVal

/-- `NestedTextError` (nestext.go / part_003): code, message and an optional
wrapped cause (modelled as its message).  Positions are not modelled. -/
structure NTError where
  code : Nat
  msg : String
  wrapped : Option String := none
deriving DecidableEq

/-- Error codes from the `const` block of part_003 (`iota` evaluated). -/
def ErrCodeUsage : Nat := 1
def ErrCodeIo : Nat := 10
def ErrCodeSchema : Nat := 100
def ErrCodeFormat : Nat := 204
def ErrCodeFormatNoInput : Nat := 205
def ErrCodeFormatToplevelIndent : Nat := 206
def ErrCodeFormatIllegalTag : Nat := 207

/-- `MakeNestedTextError` / `makeParsingError` (positions not modelled). -/
def mkErr (code : Nat) (msg : String) : NTError := { code := code, msg := msg }

/-- Go runtime panics reachable in the modelled code, plus fuel exhaustion. -/
inductive GoPanic where
  | mixedItem     -- ReduceToItem: "mixed item: number of keys not equal to number of values"
  | nilStack      -- pushKV "use of un-initialized parser stack" / nil tos() dereference
  | indexRange    -- slice or index out of range
  | unknownItem   -- parseAny default branch panic
  | actionIndex   -- indexing the inline action table with the error state
  | outOfFuel     -- fuel exhaustion of the embedding (no Go counterpart)
deriving DecidableEq

/-! ## Character classification (part_003) and Go string helpers -/

/-- `unicode.IsSpace`: Go's White_Space property. -/
def goIsSpace (c : Char) : Bool :=
  c = ' ' || ('\x09' ≤ c && c ≤ '\x0d') || c = '\x85' || c = '\xa0' ||
  c.val = 0x1680 || (0x2000 ≤ c.val && c.val ≤ 0x200a) ||
  c.val = 0x2028 || c.val = 0x2029 || c.val = 0x202f ||
  c.val = 0x205f || c.val = 0x3000

/-- `strings.TrimSpace` on a character list. -/
def trimSpaceChars (cs : List Char) : List Char :=
  ((cs.dropWhile goIsSpace).reverse.dropWhile goIsSpace).reverse

/-- Drop `n` UTF-8 bytes from the front of a character list; `none` when the
 list is too short or `n` is not at a character boundary (Go would panic
 slicing, or produce mangled bytes we never rely on). -/
def dropB : Nat → List Char → Option (List Char)
  | 0, cs => some cs
  | _ + 1, [] => none
  | n + 1, c :: rest =>
      if c.utf8Size ≤ n + 1 then dropB (n + 1 - c.utf8Size) rest else none

/-- Take `n` UTF-8 bytes from the front of a character list. -/
def takeB : Nat → List Char → Option (List Char)
  | 0, _ => some []
  | _ + 1, [] => none
  | n + 1, c :: rest =>
      if c.utf8Size ≤ n + 1 then
        match takeB (n + 1 - c.utf8Size) rest with
        | none => none
        | some tail => some (c :: tail)
      else none

/-- Go slice `text[a:b]` by byte offsets (drop `a` bytes, take `b - a`). -/
def sliceBytes (text : List Char) (a b : Nat) : Option (List Char) :=
  if b < a then none
  else
    match dropB a text with
    | none => none
    | some suffix => takeB (b - a) suffix

/-- `inlineTokenFor` (part_003): character classes
`character=0, whitespace=1, newline=2, comma=3, colon=4, listOpen=5,
listClose=6, dictOpen=7, dictClose=8`. -/
def inlineTokenFor (c : Char) : Nat :=
  if c = ' ' then 1
  else if c = '\n' then 2
  else if c = ',' then 3
  else if c = ':' then 4
  else if c = '[' then 5
  else if c = ']' then 6
  else if c = '{' then 7
  else if c = '}' then 8
  else if goIsSpace c then 1
  else 0

/-! ## Parser stack (part_011, "Parser stack" section)

The Go stack is a slice with the top at the end; we model it as a list with
the top at the head (`tos = head`, `push = cons`, `pop = tail`). -/

/-- `parserStackEntry`: values, optional key list (present for dicts),
pending key, remembered error, and the parent resume state used by the
inline automaton. -/
structure StackEntry where
  values : List GoVal := []
  keys : Option (List String) := none
  key : Option String := none
  errField : Option NTError := none
  nontermState : Int := 0

/-- `pstack.pushKV`: append a value (and, when a key is given and the top
entry has a key list, the key) to the top stack entry.  Pushing onto an
empty stack is the Go panic "use of un-initialized parser stack". -/
def pushKV (stack : List StackEntry) (strOpt : Option String) (val : GoVal) :
    Except GoPanic (List StackEntry × Bool) :=
  match stack with
  | [] => .error .nilStack
  | tos :: rest =>
    let tos1 := { tos with values := tos.values ++ [val] }
    match strOpt with
    | none => .ok (tos1 :: rest, true)
    | some s =>
      match tos1.keys with
      | none => .ok (tos1 :: rest, false)
      | some ks => .ok ({ tos1 with keys := some (ks ++ [s]) } :: rest, true)

/-- Go map insertion `dict[key] = value`: overwrite in place or append. -/
def mapInsert (m : List (String × GoVal)) (k : String) (v : GoVal) :
    List (String × GoVal) :=
  match m with
  | [] => [(k, v)]
  | (k0, v0) :: rest =>
      if k0 = k then (k0, v) :: rest else (k0, v0) :: mapInsert rest k v

/-- The loop `for i, key := range entry.Keys { dict[key] = entry.Values[i] }`.
The mismatched arm is unreachable behind ReduceToItem's length check. -/
def dictOfPairs : List String → List GoVal → List (String × GoVal) →
    List (String × GoVal)
  | [], _, acc => acc
  | _ :: _, [], acc => acc
  | k :: ks, v :: vs, acc => dictOfPairs ks vs (mapInsert acc k v)

/-- `parserStackEntry.ReduceToItem`: a key-less entry reduces to a list; an
entry with keys reduces to a dict, and an uneven count of keys and values is
the "mixed item" panic. -/
def reduceToItem (entry : StackEntry) : Except GoPanic GoVal :=
  match entry.keys with
  | none => .ok (.list entry.values)
  | some ks =>
      if 0 < ks.length ∧ entry.values.length ≠ ks.length then .error .mixedItem
      else .ok (.dict (dictOfPairs ks entry.values []))

/-! ## The inline-item automaton (part_011, "Inline item parser") -/

/-- Rows of `inlineStateMachine`; states are `int8` values with `e = -1`,
`_S1 = 11`, `_S2 = 12`, `_A1 = 13`, `_A2 = 14`.  Column order:
`A ws nl , : [ ] { } _S(S1) _S(S2)`. -/
def smRow (s : Int) : List Int :=
  if s = 0 then  [-1, -1, -1, -1, -1,  7, -1,  1, -1, -1, -1]
  else if s = 1 then  [ 2,  2, -1, -1,  3, -1, -1, -1, 13, -1, -1]
  else if s = 2 then  [ 2,  2, -1, -1,  3, -1, -1, -1, -1, -1, -1]
  else if s = 3 then  [ 4,  3, -1,  6, -1, 12, -1, 11, 13,  5,  5]
  else if s = 4 then  [ 4,  4, -1,  6, -1, -1, -1, -1, 13, -1, -1]
  else if s = 5 then  [-1,  5, -1,  6, -1, -1, -1, -1, 13, -1, -1]
  else if s = 6 then  [ 2,  6, -1, -1,  3, -1, -1, -1, -1, -1, -1]
  else if s = 7 then  [ 9,  8, -1,  7,  9, 12, 14, 11, -1, 10, 10]
  else if s = 8 then  [ 9,  8, -1,  7,  9, 12, 14, 11, -1, 10, 10]
  else if s = 9 then  [ 9,  9, -1,  7,  9, -1, 14, -1, -1, -1, -1]
  else if s = 10 then [-1, 10, -1,  7, -1, -1, 14, -1, -1, -1, -1]
  else if s = 11 then [-1, -1, -1, -1, -1, -1, -1,  1, -1, -1, -1]
  else if s = 12 then [-1, -1, -1, -1, -1,  7, -1, -1, -1, -1, -1]
  else [-1, -1, -1, -1, -1, -1, -1, -1, -1, -1, -1]

/-- `inlineStateMachine[s][k]`. -/
def inlineStateMachine (s : Int) (k : Nat) : Int := (smRow s).getD k (-1)

def isErrorState (s : Int) : Prop := s < 0
def isNonterm (s : Int) : Prop := s = 11 ∨ s = 12
def isAccept (s : Int) : Prop := s = 13 ∨ s = 14
/-- `isGhost`: states resumed after a nested item reduced. -/
def isGhost (s : Int) : Bool := s = 5 || s = 10

/-- `_S`: a non-terminal state as a pseudo character class
(`int(s - _S1) + chClassCnt - 2`). -/
def pseudoS (s : Int) : Nat := (s - 11).toNat + 9

/-- Mutable state of `inlineItemParser` during one `parse` call:
`TextPosition`, `Marker`, the parser stack, and the automaton state. -/
structure InlineRun where
  pos : Nat := 0
  marker : Nat := 0
  stack : List StackEntry := []
  state : Int := 0

/-- `inlineItemParser.appendStringValue`. -/
def appendStringValue (text : List Char) (isAcc : Bool) (run : InlineRun) :
    Except GoPanic InlineRun :=
  match sliceBytes text run.marker run.pos with
  | none => .error .indexRange
  | some raw =>
    match run.stack with
    | [] => .error .nilStack
    | tos :: _ =>
      match tos.key with
      | some _ =>
          let value := String.mk (trimSpaceChars raw)
          match pushKV run.stack tos.key (.str value) with
          | .error p => .error p
          | .ok (stack1, _) => .ok { run with stack := stack1 }
      | none =>
          if !isAcc || !raw.isEmpty || !tos.values.isEmpty then
            let value := String.mk (trimSpaceChars raw)
            match pushKV run.stack none (.str value) with
            | .error p => .error p
            | .ok (stack1, _) => .ok { run with stack := stack1 }
          else .ok run

/-- Set the pending key of the top stack entry. -/
def setTosKey (stack : List StackEntry) (k : Option String) :
    Except GoPanic (List StackEntry) :=
  match stack with
  | [] => .error .nilStack
  | tos :: rest => .ok ({ tos with key := k } :: rest)

/-- `inlineStateMachineActions[state]` as one dispatcher.  Every Go action
returns `true`; the Bool is kept for fidelity with the `!ok` branch. -/
def inlineAction (text : List Char) (oldS newS : Int) (c : Char) (w : Nat)
    (run : InlineRun) : Except GoPanic (InlineRun × Bool) :=
  if newS = 1 then
    -- action 1: get ready for first key
    .ok ({ run with marker := run.pos + w }, true)
  else if newS = 3 then
    -- action 3: close the key fragment
    if oldS ≠ 3 then
      match sliceBytes text run.marker run.pos with
      | none => .error .indexRange
      | some raw =>
        let key := String.mk (trimSpaceChars raw)
        match setTosKey run.stack (some key) with
        | .error p => .error p
        | .ok stack1 =>
            .ok ({ run with stack := stack1, marker := run.pos + w }, true)
    else .ok (run, true)
  else if newS = 6 then
    -- action 6: comma in dict context
    if oldS ≠ 6 then
      match
        (if run.marker > 0 ∧ ¬ (isGhost oldS = true) then
          appendStringValue text false run
        else .ok run) with
      | .error p => .error p
      | .ok run1 =>
        match setTosKey run1.stack none with
        | .error p => .error p
        | .ok stack1 =>
            .ok ({ run1 with stack := stack1, marker := run1.pos + w }, true)
    else .ok (run, true)
  else if newS = 7 then
    -- action 7: comma in list context
    match
      (if c = ',' ∧ run.marker > 0 ∧ ¬ (isGhost oldS = true) then
        appendStringValue text false run
      else .ok run) with
    | .error p => .error p
    | .ok run1 => .ok ({ run1 with marker := run1.pos + w }, true)
  else if newS = 11 ∨ newS = 12 then
    -- actions S1/S2
    .ok ((if oldS = 3 ∨ oldS = 8 then { run with marker := 0 } else run), true)
  else if newS = 13 ∨ newS = 14 then
    -- accept
    match
      (if run.marker > 0 ∧ ¬ (isGhost oldS = true) then
        appendStringValue text true run
      else .ok run) with
    | .error p => .error p
    | .ok run1 => .ok (run1, true)
  else if 0 ≤ newS ∧ newS ≤ 14 then .ok (run, true)   -- nop actions
  else .error .actionIndex   -- Go would index the action table at -1

/-- Error produced when the automaton reads past the end of the line
(`WrapError(ErrCodeIO, "I/O-error reading inline item", io.EOF)`). -/
def inlineEofErr : NTError :=
  { code := ErrCodeIo, msg := "I/O-error reading inline item", wrapped := some "EOF" }

/-- The error reporting after the main loop of `inlineItemParser.parse`. -/
def inlineResolve (run : InlineRun) (result : Option GoVal) :
    Except GoPanic (Option GoVal × Option NTError) :=
  if run.state < 0 then
    match run.stack with
    | [] => .error .indexRange    -- p.stack[len(p.stack)-1] on an empty stack
    | tos :: _ =>
      match tos.errField with
      | some e => .ok (result, some e)
      | none => .ok (result, some (mkErr ErrCodeFormat "format error"))
  else .ok (result, none)

/-- The `break` exits of the main loop: the loop ends with the current state
resolved by the after-loop error reporting. -/
def stepBreak (run : InlineRun) (result : Option GoVal) :
    Except GoPanic ((Option GoVal × Option NTError) ⊕ (InlineRun × Option GoVal)) :=
  match inlineResolve run result with
  | .error p => .error p
  | .ok out => .ok (.inl out)

/-- The accept-state handling inside the main loop: reduce the top frame,
resume the parent at the remembered state, pop, and push the reduced result
into the parent under its pending key. -/
def stepAccept (w : Nat) (run3 : InlineRun) :
    Except GoPanic (InlineRun × Option GoVal) :=
  match run3.stack with
  | [] => .error .nilStack
  | tos :: rest =>
    match reduceToItem tos with
    | .error p => .error p
    | .ok r =>
      let s3 := tos.nontermState
      match rest with
      | [] =>
          let run4 := { run3 with stack := ([] : List StackEntry), state := s3, pos := run3.pos + w }
          .ok (run4, some r)
      | parent :: _ =>
          match pushKV rest parent.key r with
          | .error p => .error p
          | .ok (stack4, _) =>
              let run4 := { run3 with stack := stack4, state := s3, pos := run3.pos + w }
              .ok (run4, some r)

/-- One iteration of the main loop of `inlineItemParser.parse` on character
`c`: either the loop breaks (`.inl`, already resolved), or it continues with
a new run state and result (`.inr`). -/
def inlineStep (text : List Char) (c : Char) (run : InlineRun)
    (result : Option GoVal) :
    Except GoPanic ((Option GoVal × Option NTError) ⊕ (InlineRun × Option GoVal)) :=
  let w := c.utf8Size
  let k := inlineTokenFor c
  let oldS := run.state
  let s1 := inlineStateMachine oldS k
  if s1 < 0 then stepBreak { run with state := s1 } result
  else
    -- non-terminal entry: push a fresh frame, redirect, remember resume state
    let stepped :=
      if s1 = 11 ∨ s1 = 12 then
        let entry : StackEntry :=
          { keys := if s1 = 11 then some [] else none,
            nontermState := inlineStateMachine oldS (pseudoS s1) }
        (inlineStateMachine s1 k, { run with stack := entry :: run.stack })
      else (s1, run)
    let s2 := stepped.1
    let run2 := stepped.2
    match inlineAction text oldS s2 c w run2 with
    | .error p => .error p
    | .ok (run3, ok) =>
      if ¬ ok then stepBreak { run3 with state := -1 } result
      else if s2 = 13 ∨ s2 = 14 then
        match stepAccept w run3 with
        | .error p => .error p
        | .ok out => .ok (.inr out)
      else .ok (.inr ({ run3 with state := s2, pos := run3.pos + w }, result))

/-- The main loop `for len(p.stack) > 0 { ... }` of `inlineItemParser.parse`,
recursing over the remaining input characters (`p.Input.ReadRune()` reads
exactly one character per iteration; reading past the end of the line is the
wrapped EOF error). -/
def inlineLoop (text : List Char) : List Char → InlineRun → Option GoVal →
    Except GoPanic (Option GoVal × Option NTError)
  | input, run, result =>
    match run.stack with
    | [] => inlineResolve run result
    | _ :: _ =>
      match input with
      | [] => .ok (none, some inlineEofErr)
      | c :: rest =>
        match inlineStep text c run result with
        | .error p => .error p
        | .ok (.inl out) => .ok out
        | .ok (.inr (run1, result1)) => inlineLoop text rest run1 result1

/-- `inlineItemParser.parse`: parse one inline item from `input`, starting at
non-terminal state `initial` (`_S1 = 11` for dicts, `_S2 = 12` for lists).
The initial `pushNonterm` gives the root frame a key list exactly for `_S1`. -/
def inlineParse (initial : Int) (input : String) :
    Except GoPanic (Option GoVal × Option NTError) :=
  let text := input.data
  let entry : StackEntry := { keys := if initial = 11 then some [] else none }
  inlineLoop text text { state := initial, stack := [entry] } none

/-! ## Scanner (linebuf.go + scan.go, second revision)

The scanner consumes exactly one input line per token: every branch of
`ScanItemBody`/`recognizeItemTag` ends by reading the remainder of the line
(`ReadLineRemainder`) or matching the end-of-line marker.  We therefore model
it as a per-line classification over the logical lines of the document. -/

/-- Token types (part_003, `parserTokenType`, `iota` order). -/
inductive parserTokenType where
  | undefined
  | eof
  | emptyDocument
  | docRoot
  | listItem
  | listItemMultiline
  | stringMultiline
  | dictKeyMultiline
  | inlineList
  | inlineDict
  | inlineDictKeyValue
  | inlineDictKey
deriving DecidableEq

/-- `parserToken` (part_003); positions are not modelled. -/
structure parserToken where
  tokenType : parserTokenType := .undefined
  indent : Nat := 0
  content : List String := []
  errField : Option NTError := none

/-- Logical line splitting of `linebuf.go`: `bufio.ScanLines` with the custom
splitter accepting `LF`, `CR` and `CRLF` terminators; a final line without
terminator is still a line, a trailing terminator adds no empty line. -/
def splitLinesAux : List Char → List Char → List (List Char)
  | [], acc => if acc.isEmpty then [] else [acc.reverse]
  | '\r' :: '\n' :: rest, acc => acc.reverse :: splitLinesAux rest []
  | '\r' :: rest, acc => acc.reverse :: splitLinesAux rest []
  | '\n' :: rest, acc => acc.reverse :: splitLinesAux rest []
  | c :: rest, acc => splitLinesAux rest (c :: acc)

def splitLines (cs : List Char) : List (List Char) := splitLinesAux cs []

/-- `\s` of Go's regexp package: `[\t\n\f\r ]`. -/
def goRegexSpace (c : Char) : Bool :=
  c = '\t' || c = '\n' || c = '\x0c' || c = '\r' || c = ' '

/-- `lineBuffer.IsIgnoredLine`: blank lines (`^\s*$`) and comment lines
(`^\s*#`) are skipped by `AdvanceLine`. -/
def isIgnoredLine (line : List Char) : Bool :=
  let rest := line.dropWhile goRegexSpace
  rest.isEmpty || rest.head? = some '#'

/-- The content lines of a list of logical lines. -/
def contentLinesL (lines : List (List Char)) : List (List Char) :=
  lines.filter (fun l => ¬ isIgnoredLine l)

/-- `lineBuffer.ReadLineRemainder` seen from a position inside the current
line whose unread part is `rest`: normally the lookahead character plus the
rest of the line; when the cursor has moved past the line end the lookahead
is the synthetic `eolMarker`, so the remainder of an empty tail is "\n". -/
def readLineRemainder (rest : List Char) : String :=
  match rest with
  | [] => "\n"
  | _ => String.mk rest

/-- `scanner.recognizeItemTag` (scan.go): after the tag character, a space
yields the single-line token with the line remainder as content, end-of-line
yields the multiline token, and anything else is the illegal-tag error. -/
def recognizeItemTag (single multi : parserTokenType) (indent : Nat)
    (after : List Char) : parserToken :=
  match after with
  | ' ' :: rest2 =>
      { tokenType := single, indent := indent,
        content := [readLineRemainder rest2] }
  | [] => { tokenType := multi, indent := indent }
  | _ :: _ =>
      { indent := indent,
        errField := some (mkErr ErrCodeFormatIllegalTag
          "item tag followed by illegal character") }

/-- `scanner.recognizeInlineItem` (scan.go): compares the last character of
the line text against the lookahead (the opening bracket) and stores the
whole remaining line as content. -/
def recognizeInlineItem (toktype : parserTokenType) (indent : Nat)
    (line rest : List Char) : parserToken :=
  let tok : parserToken :=
    { tokenType := toktype, indent := indent,
      content := [readLineRemainder rest] }
  match line.getLast?, rest.head? with
  | some closing, some la =>
      if closing ≠ la then
        { tok with errField := some (mkErr ErrCodeFormatIllegalTag
            "inline-item does not match opening tag") }
      else tok
  | _, _ => tok

/-- Modelled from the spec: the plain dictionary-key rule.  The final
`ScanInlineKey` implementation is not part of src/ (src/scan.go holds only a
stub; its tests and the parser are present).  Per spec section 4.2: scan
forward for a `:` immediately followed by space or end-of-line; the
whitespace-trimmed prefix is the key, and the tag splits into
`InlineDictKeyValue` (value on the same line) or `InlineDictKey` (no value on
the line); without such a `:` the line is the fatal error
"dict key item not properly terminated by ':'".  The value is extracted with
the source's `ReadLineRemainder`. -/
def scanKeyLineAux (indent : Nat) (seen : List Char) :
    List Char → parserToken
  | [] =>
      { indent := indent,
        errField := some (mkErr ErrCodeFormat
          "dict key item not properly terminated by ':'") }
  | ':' :: [] =>
      { tokenType := .inlineDictKey, indent := indent,
        content := [String.mk (trimSpaceChars seen)] }
  | ':' :: ' ' :: valRest =>
      { tokenType := .inlineDictKeyValue, indent := indent,
        content := [String.mk (trimSpaceChars seen),
                    readLineRemainder valRest] }
  | c :: rest => scanKeyLineAux indent (seen ++ [c]) rest

/-- One line through `ScanItem` / `ScanIndentation` / `ScanItemBody`:
count the leading spaces, then dispatch on the first non-space character. -/
def scanLine (line : List Char) : parserToken :=
  let indent := (line.takeWhile (fun c => c = ' ')).length
  let rest := line.drop indent
  match rest with
  | '-' :: after => recognizeItemTag .listItem .listItemMultiline indent after
  | '>' :: after => recognizeItemTag .stringMultiline .stringMultiline indent after
  | ':' :: after => recognizeItemTag .dictKeyMultiline .dictKeyMultiline indent after
  | '[' :: _ => recognizeInlineItem .inlineList indent line rest
  | '{' :: _ => recognizeInlineItem .inlineDict indent line rest
  | _ => scanKeyLineAux indent [] rest

/-- `scanner.ScanFileStart`: `emptyDocument` when there is no content line;
otherwise a `docRoot` health-check token, carrying the fatal
top-level-indent error when the first content line starts with a space. -/
def scanFileStartL (lines : List (List Char)) : parserToken :=
  match contentLinesL lines with
  | [] => { tokenType := .emptyDocument }
  | l :: _ =>
      if l.head? = some ' ' then
        { tokenType := .docRoot,
          errField := some (mkErr ErrCodeFormatToplevelIndent
            "top-level item must not be indented") }
      else { tokenType := .docRoot }

/-- The token stream the scanner produces for a document given as logical
lines: the file-start health check, then one token per content line.  Once
the stream is exhausted the scanner reports `eof` tokens (the eof-emission
of the final scanner is not in src/; modelled from the spec: "nextToken
returns ... an Eof/EmptyDocument token once input is exhausted"). -/
def scanTokensL (lines : List (List Char)) : List parserToken :=
  scanFileStartL lines :: (contentLinesL lines).map scanLine

/-! ## Line-level parser (part_011) -/

/-- The scanner's token at end of input (spec-modelled, see `scanTokensL`). -/
def eofToken : parserToken := { tokenType := .eof }

/-- Parser state: the remaining token stream, the current token `p.token`,
and the parser stack `p.stack`. -/
structure PState where
  tokens : List parserToken
  token : parserToken := {}
  stack : List StackEntry := []

/-- `p.token = p.sc.NextToken()`. -/
def nextTokenP (st : PState) : PState :=
  match st.tokens with
  | [] => { st with token := eofToken }
  | t :: rest => { st with token := t, tokens := rest }

/-- `keyValuePair` (part_011). -/
structure keyValuePair where
  key : Option String := none
  value : Option GoVal := none

/-- `allowVoid`. -/
def allowVoid (val : List String) (i : Nat) : String := val.getD i ""

/-- `nestedTextParser.pushNonterm`. -/
def pushNonterm (isDict : Bool) (stack : List StackEntry) : List StackEntry :=
  { values := [], keys := if isDict then some [] else none } :: stack

/-- Result type of the parser procedures: `(result, err)` plus the threaded
parser state, under the panic monad. -/
abbrev PRes := Except GoPanic (Option GoVal × Option NTError × PState)

mutual

/-- `nestedTextParser.parseDocument`. -/
def parseDocument : Nat → PState → PRes
  | 0, _ => .error .outOfFuel
  | fuel + 1, st =>
    -- initial token from scanner is a health check for the input source
    let st1 := nextTokenP st
    if st1.token.errField ≠ none then .ok (none, st1.token.errField, st1)
    else if st1.token.tokenType = .eof ∨ st1.token.tokenType = .emptyDocument then
      .ok (none, none, st1)
    else
      -- read the first item line
      let st2 := nextTokenP st1
      if st2.token.errField ≠ none then .ok (none, st2.token.errField, st2)
      else
        match parseAny fuel 0 st2 with
        | .error p => .error p
        | .ok (res, err, st3) =>
          if err = none ∧ st3.token.tokenType ≠ .eof then
            .ok (res, some (mkErr ErrCodeFormat
              "unused content following valid input"), st3)
          else .ok (res, err, st3)

/-- `nestedTextParser.parseAny`. -/
def parseAny : Nat → Nat → PState → PRes
  | 0, _, _ => .error .outOfFuel
  | fuel + 1, indent, st =>
    if st.token.indent < indent then .ok (none, none, st)
    else
      match st.token.tokenType with
      | .stringMultiline => parseMultiString fuel st.token.indent st
      | .inlineList =>
        match st.token.content.head? with
        | none => .error .indexRange   -- p.token.Content[0]
        | some text =>
          match inlineParse 12 text with
          | .error p => .error p
          | .ok (res, err) =>
            if err = none then
              let st1 := nextTokenP st
              if st1.token.errField ≠ none then .ok (none, st1.token.errField, st1)
              else .ok (res, err, st1)
            else .ok (res, err, st)
      | .inlineDict =>
        match st.token.content.head? with
        | none => .error .indexRange
        | some text =>
          match inlineParse 11 text with
          | .error p => .error p
          | .ok (res, err) =>
            if err = none then
              let st1 := nextTokenP st
              if st1.token.errField ≠ none then .ok (none, st1.token.errField, st1)
              else .ok (res, err, st1)
            else .ok (res, err, st)
      | .listItem => parseList fuel indent st
      | .listItemMultiline => parseList fuel indent st
      | .inlineDictKeyValue => parseDict fuel indent st
      | .inlineDictKey => parseDict fuel indent st
      | .dictKeyMultiline => parseDict fuel indent st
      | _ => .error .unknownItem   -- panic("unknown item type")
termination_by structural n => n

/-- `nestedTextParser.parseList`. -/
def parseList : Nat → Nat → PState → PRes
  | 0, _, _ => .error .outOfFuel
  | fuel + 1, _, st =>
    let st0 := { st with stack := pushNonterm false st.stack }
    match parseListItems fuel st0.token.indent st0 with
    | .error p => .error p
    | .ok (_, some e, st1) => .ok (none, some e, st1)
    | .ok (_, none, st1) =>
      match st1.stack with
      | [] => .error .nilStack   -- p.stack.tos() would be nil
      | tos :: rest =>
        match reduceToItem tos with
        | .error p => .error p
        | .ok r => .ok (some r, none, { st1 with stack := rest })
termination_by structural n => n

/-- `nestedTextParser.parseListItems` (the loop). -/
def parseListItems : Nat → Nat → PState → PRes
  | 0, _, _ => .error .outOfFuel
  | fuel + 1, indent, st =>
    if st.token.tokenType = .listItem ∨ st.token.tokenType = .listItemMultiline then
      match
        (if st.token.tokenType = .listItem then parseListItem fuel indent st
        else parseListItemMultiline fuel indent st) with
      | .error p => .error p
      | .ok (value, err, st1) =>
        match value, err with
        | some v, none =>
          match pushKV st1.stack none v with
          | .error p => .error p
          | .ok (stack2, _) => parseListItems fuel indent { st1 with stack := stack2 }
        | _, some e => .ok (none, some e, st1)
        | none, none =>
          -- break, then `return p.stack.tos().Values, err` (err is nil here)
          match st1.stack with
          | [] => .error .nilStack
          | tos :: _ => .ok (some (.list tos.values), none, st1)
    else
      match st.stack with
      | [] => .error .nilStack
      | tos :: _ => .ok (some (.list tos.values), none, st)
termination_by structural n => n

/-- `nestedTextParser.parseListItem`. -/
def parseListItem : Nat → Nat → PState → PRes
  | 0, _, _ => .error .outOfFuel
  | _ + 1, indent, st =>
    if st.token.indent > indent then
      .ok (none, some (mkErr ErrCodeFormat
        "invalid indent: may only follow an item that does not already have a value"), st)
    else if st.token.indent < indent then .ok (none, none, st)
    else
      match st.token.content.head? with
      | none => .error .indexRange   -- p.token.Content[0]
      | some value =>
        let st1 := nextTokenP st
        if st1.token.errField ≠ none then .ok (none, st1.token.errField, st1)
        else .ok (some (.str value), none, st1)

/-- `nestedTextParser.parseListItemMultiline`. -/
def parseListItemMultiline : Nat → Nat → PState → PRes
  | 0, _, _ => .error .outOfFuel
  | fuel + 1, indent, st =>
    if st.token.indent ≠ indent then .ok (none, none, st)
    else
      let st1 := nextTokenP st
      if st1.token.errField ≠ none then .ok (none, st1.token.errField, st1)
      else if st1.token.indent ≤ indent then .ok (some (.str ""), none, st1)
      else
        match parseAny fuel st1.token.indent st1 with
        | .error p => .error p
        | .ok (res, err, st2) =>
          if st2.token.indent > indent then
            .ok (none, some (mkErr ErrCodeFormat
              "invalid indent: may only follow an item that does not already have a value"), st2)
          else .ok (res, err, st2)
termination_by structural n => n

/-- `nestedTextParser.parseDict`. -/
def parseDict : Nat → Nat → PState → PRes
  | 0, _, _ => .error .outOfFuel
  | fuel + 1, indent, st =>
    let st0 := { st with stack := pushNonterm true st.stack }
    match parseDictKeyValuePairs fuel st0.token.indent st0 with
    | .error p => .error p
    | .ok (_, some e, st1) => .ok (none, some e, st1)
    | .ok (_, none, st1) =>
      match st1.stack with
      | [] => .error .nilStack
      | tos :: rest =>
        match reduceToItem tos with
        | .error p => .error p
        | .ok r =>
          if st1.token.indent > indent then
            .ok (some r, some (mkErr ErrCodeFormat "partial dedent"),
                 { st1 with stack := rest })
          else .ok (some r, none, { st1 with stack := rest })
termination_by structural n => n

/-- `nestedTextParser.parseDictKeyValuePairs` (the loop); on loop exit the Go
code returns `p.stack.tos().Keys` (discarded by the caller) together with
the error variable of the loop. -/
def parseDictKeyValuePairs : Nat → Nat → PState → PRes
  | 0, _, _ => .error .outOfFuel
  | fuel + 1, indent, st =>
    if st.token.tokenType = .inlineDictKeyValue ∨ st.token.tokenType = .inlineDictKey ∨
        st.token.tokenType = .dictKeyMultiline then
      match
        (match st.token.tokenType with
          | .inlineDictKeyValue => parseDictKeyValuePair fuel indent st
          | .inlineDictKey => parseDictKeyAnyValuePair fuel indent st
          | _ => parseDictKeyValuePairWithMultilineKey fuel indent st) with
      | .error p => .error p
      | .ok (kv, err, st1) =>
        match kv.value with
        | some v =>
          if err ≠ none then .ok (none, err, st1)
          else
            match pushKV st1.stack kv.key v with
            | .error p => .error p
            | .ok (stack2, _) =>
                parseDictKeyValuePairs fuel indent { st1 with stack := stack2 }
        | none =>
          -- break, then `return p.stack.tos().Keys, err`
          match st1.stack with
          | [] => .error .nilStack
          | tos :: _ =>
              .ok ((tos.keys.map (fun ks => GoVal.list (ks.map GoVal.str))), err, st1)
    else
      match st.stack with
      | [] => .error .nilStack
      | tos :: _ =>
          .ok ((tos.keys.map (fun ks => GoVal.list (ks.map GoVal.str))), none, st)
termination_by structural n => n

/-- `nestedTextParser.parseDictKeyValuePair`. -/
def parseDictKeyValuePair : Nat → Nat → PState →
    Except GoPanic (keyValuePair × Option NTError × PState)
  | 0, _, _ => .error .outOfFuel
  | _ + 1, indent, st =>
    if st.token.indent ≠ indent then .ok ({}, none, st)
    else
      match st.token.content with
      | key :: value :: _ =>
        let st1 := nextTokenP st
        if st1.token.errField ≠ none then .ok ({}, st1.token.errField, st1)
        else .ok ({ key := some key, value := some (.str value) }, none, st1)
      | _ => .error .indexRange   -- p.token.Content[0] / Content[1]

/-- `nestedTextParser.parseDictKeyAnyValuePair`. -/
def parseDictKeyAnyValuePair : Nat → Nat → PState →
    Except GoPanic (keyValuePair × Option NTError × PState)
  | 0, _, _ => .error .outOfFuel
  | fuel + 1, indent, st =>
    if st.token.indent ≠ indent then .ok ({}, none, st)
    else
      match st.token.content.head? with
      | none => .error .indexRange   -- &p.token.Content[0]
      | some key =>
        let st1 := nextTokenP st
        if st1.token.errField ≠ none then
          .ok ({ key := some key }, st1.token.errField, st1)
        else if st1.token.indent ≤ indent then
          .ok ({ key := some key, value := some (.str "") }, none, st1)
        else
          match parseAny fuel st1.token.indent st1 with
          | .error p => .error p
          | .ok (v, err, st2) => .ok ({ key := some key, value := v }, err, st2)
termination_by structural n => n

/-- The key-merging loop of `parseDictKeyValuePairWithMultilineKey`. -/
def multilineKeyAccum : Nat → Nat → String → PState →
    Except GoPanic (Option NTError × String × PState)
  | 0, _, _, _ => .error .outOfFuel
  | fuel + 1, indent, acc, st =>
    let st1 := nextTokenP st
    if st1.token.errField ≠ none then .ok (st1.token.errField, acc, st1)
    else if st1.token.tokenType ≠ .dictKeyMultiline ∨ st1.token.indent ≠ indent then
      .ok (none, acc, st1)
    else
      multilineKeyAccum fuel indent
        (acc ++ "\n" ++ allowVoid st1.token.content 0) st1
termination_by structural n => n

/-- `nestedTextParser.parseDictKeyValuePairWithMultilineKey`. -/
def parseDictKeyValuePairWithMultilineKey : Nat → Nat → PState →
    Except GoPanic (keyValuePair × Option NTError × PState)
  | 0, _, _ => .error .outOfFuel
  | fuel + 1, indent, st =>
    if st.token.indent ≠ indent then .ok ({}, none, st)
    else
      match multilineKeyAccum fuel indent (allowVoid st.token.content 0) st with
      | .error p => .error p
      | .ok (some e, _, st1) => .ok ({}, some e, st1)
      | .ok (none, key, st1) =>
        if st1.token.indent ≤ indent then
          .ok ({ key := some key, value := some (.str "") }, none, st1)
        else
          match parseAny fuel st1.token.indent st1 with
          | .error p => .error p
          | .ok (v, err, st2) => .ok ({ key := some key, value := v }, err, st2)
termination_by structural n => n

/-- The joining loop of `parseMultiString`. -/
def multiStringAccum : Nat → Nat → String → PState → PRes
  | 0, _, _, _ => .error .outOfFuel
  | fuel + 1, indent, acc, st =>
    let st1 := nextTokenP st
    if st1.token.errField ≠ none then
      .ok (some (.str acc), st1.token.errField, st1)
    else if st1.token.tokenType ≠ .stringMultiline ∨ st1.token.indent ≠ indent then
      .ok (some (.str acc), none, st1)
    else
      multiStringAccum fuel indent
        (acc ++ "\n" ++ allowVoid st1.token.content 0) st1
termination_by structural n => n

/-- `nestedTextParser.parseMultiString`. -/
def parseMultiString : Nat → Nat → PState → PRes
  | 0, _, _ => .error .outOfFuel
  | fuel + 1, indent, st =>
    if st.token.indent ≠ indent then .ok (none, none, st)
    else multiStringAccum fuel indent (allowVoid st.token.content 0) st

end

/-! ## Options, result wrapping and the `Parse` entry point -/

/-- The option values constructible through the package API. -/
inductive NTOption where
  | topLevel (top : String)
  | keepLegacyBidi (keep : Bool)

/-- `strings.HasPrefix(top, "dict.")`. -/
def hasDictDotStart (top : String) : Bool :=
  match top.data with
  | 'd' :: 'i' :: 'c' :: 't' :: '.' :: _ => true
  | _ => false

/-- Applying one option to the parser (`TopLevel`, `KeepLegacyBidi`):
returns the new `p.toplevel` or the usage error. -/
def applyOption (toplevel : String) (o : NTOption) : Except NTError String :=
  match o with
  | .keepLegacyBidi _ => .ok toplevel
  | .topLevel top =>
    if top = "dict" then .ok "dict"
    else if top = "list" then .ok "list"
    else if hasDictDotStart top then .ok (top.drop 5)
    else .error (mkErr ErrCodeUsage
      "option TopLevel( \"list\" | \"dict\"(\".<suffix>\")? )")

/-- The option loop of `Parse`: first failing option aborts. -/
def applyOptions (toplevel : String) : List NTOption → Except NTError String
  | [] => .ok toplevel
  | o :: rest =>
    match applyOption toplevel o with
    | .error e => .error e
    | .ok t => applyOptions t rest

/-- A Go `interface{}` holding an `Option GoVal` (`nil` for `none`). -/
def goOf : Option GoVal → GoVal
  | none => .null
  | some v => v

/-- `nestedTextParser.wrapResult`. -/
def wrapResult (toplevel : String) (result : Option GoVal) : Option GoVal :=
  if toplevel = "" then result
  else if toplevel = "list" then
    match result with
    | some (.list _) => result   -- reflect.Kind == Slice
    | _ => some (.list [goOf result])
  else if toplevel = "dict" then
    match result with
    | some (.dict _) => result   -- reflect.Kind == Map
    | _ => some (.dict [("nestedtext", goOf result)])
  else some (.dict [(toplevel, goOf result)])

/-- `Parse` on a document already split into logical lines: apply the
options, create the scanner (already positioned on the lines), run
`parseDocument` and wrap the result on success. -/
def goParseLines (lines : List (List Char)) (opts : List NTOption)
    (fuel : Nat) : Except GoPanic (Option GoVal × Option NTError) :=
  match applyOptions "" opts with
  | .error e => .ok (none, some e)
  | .ok toplevel =>
    match parseDocument fuel { tokens := scanTokensL lines } with
    | .error p => .error p
    | .ok (res, err, _) =>
      if err = none then .ok (wrapResult toplevel res, none)
      else .ok (res, err)

/-- `nestext.Parse(r, opts...)`: a `none` input models a nil `io.Reader`
(`newScanner` then fails with the no-input error before any scanning). -/
def goParse (input : Option String) (opts : List NTOption) (fuel : Nat) :
    Except GoPanic (Option GoVal × Option NTError) :=
  match input with
  | none =>
    match applyOptions "" opts with
    | .error e => .ok (none, some e)
    | .ok _ => .ok (none, some (mkErr ErrCodeFormatNoInput "no input present"))
  | some doc => goParseLines (splitLines doc.data) opts fuel

/-! ### C9: the "mixed content" panic is unreachable

The inductive strengthening: every stack frame stays balanced (a key list,
when present, has exactly as many keys as there are values), every suspended
frame is resumed at the matching ghost state, and the automaton state always
agrees with the shape of the top frame. -/

/-- A stack entry whose key list (when present) matches its values. -/
def balancedE (e : StackEntry) : Prop :=
  ∀ ks, e.keys = some ks → ks.length = e.values.length

/-- Each frame records the state at which its parent resumes; a dict parent
resumes at ghost state 5 with its pending key still set, a list parent at
ghost state 10. -/
def linkOK : List StackEntry → Prop
  | [] => True
  | [_] => True
  | e :: f :: rest =>
      ((f.keys ≠ none → e.nontermState = 5 ∧ f.key ≠ none) ∧
       (f.keys = none → e.nontermState = 10)) ∧ linkOK (f :: rest)

/-- States whose top frame is a dict frame. -/
def dictState (s : Int) : Prop :=
  s = 1 ∨ s = 2 ∨ s = 3 ∨ s = 4 ∨ s = 5 ∨ s = 6 ∨ s = 11

/-- States whose top frame is a list frame. -/
def listState (s : Int) : Prop :=
  s = 7 ∨ s = 8 ∨ s = 9 ∨ s = 10 ∨ s = 12

/-- States at which the top dict frame has a pending key. -/
def keyState (s : Int) : Prop := s = 3 ∨ s = 4 ∨ s = 5

/-- The loop invariant of the inline automaton over state, marker, position
and stack (trivially true once the stack is empty and the loop exits). -/
def InvS (s : Int) (m p : Nat) : List StackEntry → Prop
  | [] => True
  | e :: rest =>
      (∀ f ∈ e :: rest, balancedE f) ∧ linkOK (e :: rest) ∧
      (dictState s → e.keys ≠ none) ∧
      (listState s → e.keys = none) ∧
      (keyState s → e.key ≠ none) ∧
      (s = 1 → m = p ∧ e.values = [] ∧ e.key = none) ∧
      (s = 11 → e.values = [] ∧ e.key = none) ∧
      (dictState s ∨ listState s)

def InvI (run : InlineRun) : Prop :=
  InvS run.state run.marker run.pos run.stack

instance (s : Int) : Decidable (dictState s) := by unfold dictState; infer_instance
instance (s : Int) : Decidable (listState s) := by unfold listState; infer_instance
instance (s : Int) : Decidable (keyState s) := by unfold keyState; infer_instance

/-! ### The line-level parser never panics with "mixed content" -/

/-- Every frame of the parser stack is balanced. -/
def balStack (stack : List StackEntry) : Prop := ∀ f ∈ stack, balancedE f

/-- Spec of the item-parsing procedures: no mixed-content panic, the result
stack is balanced, and a procedure that succeeds without error restores the
stack it was called with. -/
def PResOK (st : PState) (r : PRes) : Prop :=
  r ≠ .error .mixedItem ∧
  ∀ res err st1, r = .ok (res, err, st1) →
    balStack st1.stack ∧ (err = none → st1.stack = st.stack)

/-- Spec of the dict-pair procedures; additionally a returned value always
comes with a key. -/
def KVResOK (st : PState)
    (r : Except GoPanic (keyValuePair × Option NTError × PState)) : Prop :=
  r ≠ .error .mixedItem ∧
  ∀ kv err st1, r = .ok (kv, err, st1) →
    balStack st1.stack ∧ (err = none → st1.stack = st.stack) ∧
    (kv.value ≠ none → kv.key ≠ none)

/-- Spec of the item loops: on an error-free exit the loop has only replaced
the top frame of the stack it was called with. -/
def LoopOK (rest : List StackEntry) (r : PRes) : Prop :=
  r ≠ .error .mixedItem ∧
  ∀ res err st1, r = .ok (res, err, st1) →
    balStack st1.stack ∧ (err = none → ∃ tos1, st1.stack = tos1 :: rest)

/-- Spec of the multiline string joiner: it never touches the stack. -/
def MResOK (st : PState) (r : PRes) : Prop :=
  r ≠ .error .mixedItem ∧
  ∀ res err st1, r = .ok (res, err, st1) → st1.stack = st.stack

/-- Spec of the multiline key joiner: it never touches the stack. -/
def AccOK (st : PState)
    (r : Except GoPanic (Option NTError × String × PState)) : Prop :=
  r ≠ .error .mixedItem ∧
  ∀ a b st1, r = .ok (a, b, st1) → st1.stack = st.stack

/-- The inductive package for the mutual fuel recursion of the line parser. -/
def ParserSpecs (n : Nat) : Prop :=
  (∀ ind st, balStack st.stack → PResOK st (parseAny n ind st)) ∧
  (∀ ind st, balStack st.stack → PResOK st (parseList n ind st)) ∧
  (∀ ind st tos rest, balStack st.stack → st.stack = tos :: rest →
    tos.keys = none → LoopOK rest (parseListItems n ind st)) ∧
  (∀ ind st, balStack st.stack → PResOK st (parseListItemMultiline n ind st)) ∧
  (∀ ind st, balStack st.stack → PResOK st (parseDict n ind st)) ∧
  (∀ ind st tos rest, balStack st.stack → st.stack = tos :: rest →
    LoopOK rest (parseDictKeyValuePairs n ind st)) ∧
  (∀ ind st, balStack st.stack → KVResOK st (parseDictKeyAnyValuePair n ind st)) ∧
  (∀ ind st, balStack st.stack →
    KVResOK st (parseDictKeyValuePairWithMultilineKey n ind st))

/-! ## Claims -/

/-- C1: For the input text "a: Hello\nb: World\n", Parse (with no options)
returns a dictionary with exactly the two entries "a" ↦ "Hello" and
"b" ↦ "World", together with a nil error. -/
theorem C1_simple_dict_parse :
    goParse (some "a: Hello\nb: World\n") [] 50 =
      .ok (some (.dict [("a", .str "Hello"), ("b", .str "World")]), none) := by
  rfl

/-- C2: The inline automaton's empty-content rules hold exactly: "[]" is the
empty list, "{}" the empty dict, "[ ]" a one-element list of one empty
string, and "[,]" a two-element list of two empty strings. -/
theorem C2_inline_empty_content_rules :
    inlineParse 12 "[]" = .ok (some (.list []), none) ∧
    inlineParse 11 "{}" = .ok (some (.dict []), none) ∧
    inlineParse 12 "[ ]" = .ok (some (.list [.str ""]), none) ∧
    inlineParse 12 "[,]" = .ok (some (.list [.str "", .str ""]), none) :=
  ⟨rfl, rfl, rfl, rfl⟩

/-- C5: The input "- Hello\n-\n  > World\n  > !\n" decodes to the list
["Hello", "World\n!"] with a nil error. -/
theorem C5_nested_list_multiline :
    goParse (some "- Hello\n-\n  > World\n  > !\n") [] 50 =
      .ok (some (.list [.str "Hello", .str "World\n!"]), none) := by
  rfl

/-- C7: Decoding the bare string document "> Hello\n" under TopLevel("list")
yields the one-element list ["Hello"]; under TopLevel("dict.config") it
yields the dictionary {config ↦ "Hello"}. -/
theorem C7_toplevel_wrapping :
    goParse (some "> Hello\n") [NTOption.topLevel "list"] 50 =
      .ok (some (.list [.str "Hello"]), none) ∧
    goParse (some "> Hello\n") [NTOption.topLevel "dict.config"] 50 =
      .ok (some (.dict [("config", .str "Hello")]), none) :=
  ⟨by rfl, by rfl⟩

/-- C4 (divergence of the code from the claim and from the repository's own
parse test): the line "-:: x" — expected by the spec's fall-through sentence
and by `TestTableParse` in parse_test.go to be scanned as a plain key line —
is rejected by `recognizeItemTag` with the illegal-tag format error. -/
theorem C4_code_divergence_dash_key :
    goParse (some "-:: x\n") [] 50 =
      .ok (none, some (mkErr ErrCodeFormatIllegalTag
        "item tag followed by illegal character")) := by
  rfl

/-- C10 counterexample: with the option list [TopLevel "dict-config"], Parse
on a nil reader returns the usage error (code ErrCodeUsage = 1), not the
no-input error (code ErrCodeFormatNoInput = 205). -/
theorem C10_nil_input_counterexample :
    goParse none [NTOption.topLevel "dict-config"] 1 =
      .ok (none, some (mkErr ErrCodeUsage
        "option TopLevel( \"list\" | \"dict\"(\".<suffix>\")? )")) ∧
    ErrCodeUsage ≠ ErrCodeFormatNoInput :=
  ⟨by rfl, by decide⟩

/-- C10 (amended): for every option list whose options all apply without
error, Parse with a nil reader returns a nil result and the
ErrCodeFormatNoInput error "no input present"; and for every option list
whatsoever, Parse with a nil reader returns a (result, error) pair — it
never panics. -/
theorem C10_nil_input_amended :
    (∀ opts fuel t, applyOptions "" opts = .ok t →
      goParse none opts fuel =
        .ok (none, some (mkErr ErrCodeFormatNoInput "no input present"))) ∧
    (∀ opts fuel, ∃ out, goParse none opts fuel = .ok out) := by
  constructor
  · intro opts fuel t h
    simp [goParse, h]
  · intro opts fuel
    cases h : applyOptions "" opts with
    | error e => exact ⟨(none, some e), by simp [goParse, h]⟩
    | ok t => exact ⟨(none, some (mkErr ErrCodeFormatNoInput "no input present")),
        by simp [goParse, h]⟩

/-- Witness for C10: the empty option list applies without error, and Parse
with a nil reader then returns the no-input error. -/
theorem C10_nil_input_witness :
    applyOptions "" [] = .ok "" ∧
    goParse none [] 5 =
      .ok (none, some (mkErr ErrCodeFormatNoInput "no input present")) :=
  ⟨rfl, C10_nil_input_amended.1 [] 5 "" rfl⟩

/-- C6: every document whose first content line is indented fails with the
top-level-indent format error (code ErrCodeFormatToplevelIndent, message
"top-level item must not be indented") and yields no value. -/
theorem C6_toplevel_indent_error (doc : String) (fuel : Nat)
    (l : List Char) (ls : List (List Char))
    (hcl : contentLinesL (splitLines doc.data) = l :: ls)
    (hsp : l.head? = some ' ') :
    goParse (some doc) [] (fuel + 1) =
      .ok (none, some (mkErr ErrCodeFormatToplevelIndent
        "top-level item must not be indented")) := by
  simp only [goParse, goParseLines, applyOptions, parseDocument, scanTokensL,
    scanFileStartL, nextTokenP, hcl, hsp]
  simp [mkErr]

/-- Witness for C6 at the spec's scenario input "   a: 1\n". -/
theorem C6_toplevel_indent_witness :
    contentLinesL (splitLines "   a: 1\n".data) =
      [' ', ' ', ' ', 'a', ':', ' ', '1'] :: [] ∧
    [' ', ' ', ' ', 'a', ':', ' ', '1'].head? = some ' ' ∧
    goParse (some "   a: 1\n") [] 5 =
      .ok (none, some (mkErr ErrCodeFormatToplevelIndent
        "top-level item must not be indented")) :=
  ⟨rfl, rfl, C6_toplevel_indent_error "   a: 1\n" 4 _ [] rfl rfl⟩

/-! ### C3: a tag character followed by a non-space, non-eol character -/

lemma dropWhile_space_replicate (p : Char → Bool) (hp : p ' ' = true) :
    ∀ (n : Nat) (xs : List Char),
      (List.replicate n ' ' ++ xs).dropWhile p = xs.dropWhile p := by
  intro n
  induction n with
  | zero => intro xs; simp
  | succ n ih => intro xs; simp [List.replicate_succ, List.dropWhile_cons, hp, ih]

lemma takeWhile_space_replicate (n : Nat) (t : Char) (xs : List Char)
    (ht : (t = ' ') = False) :
    (List.replicate n ' ' ++ t :: xs).takeWhile (fun c => c = ' ') =
      List.replicate n ' ' := by
  induction n with
  | zero => simp [List.takeWhile_cons, ht]
  | succ n ih => simp [List.replicate_succ, List.takeWhile_cons, ih]

lemma recognizeItemTag_illegal (single multi : parserTokenType) (ind : Nat)
    (c : Char) (rest : List Char) (hc : c ≠ ' ') :
    recognizeItemTag single multi ind (c :: rest) =
      { indent := ind, errField := some (mkErr ErrCodeFormatIllegalTag
          "item tag followed by illegal character") } := by
  simp only [recognizeItemTag]

/-- C3: for every input line whose first non-space character is a tag
character '-', '>' or ':' followed immediately by a character that is
neither a space nor end-of-line, the parse fails with a format error
(the illegal-tag error when the line is unindented, the top-level-indent
error otherwise); the line never produces a value. -/
theorem C3_tag_illegal_char_error (n : Nat) (t c : Char) (rest : List Char)
    (fuel : Nat) (ht : t = '-' ∨ t = '>' ∨ t = ':') (hc : c ≠ ' ')
    (_hc2 : c ≠ '\n') :
    ∃ e, goParseLines [List.replicate n ' ' ++ t :: c :: rest] [] (fuel + 1) =
        .ok (none, some e) ∧
      ErrCodeFormat ≤ e.code ∧ (n = 0 → e.code = ErrCodeFormatIllegalTag) := by
  have htsp : goRegexSpace t = false := by
    rcases ht with h | h | h <;> subst h <;> rfl
  have htne : (t = ' ') = False := by
    rcases ht with h | h | h <;> subst h <;> simp
  have hthash : (t = '#') = False := by
    rcases ht with h | h | h <;> subst h <;> simp
  have hig : isIgnoredLine (List.replicate n ' ' ++ t :: c :: rest) = false := by
    simp [isIgnoredLine, dropWhile_space_replicate goRegexSpace rfl,
      List.dropWhile_cons, htsp, hthash]
  have hcl : contentLinesL [List.replicate n ' ' ++ t :: c :: rest] =
      [List.replicate n ' ' ++ t :: c :: rest] := by
    simp [contentLinesL, hig]
  cases n with
  | zero =>
    refine ⟨mkErr ErrCodeFormatIllegalTag "item tag followed by illegal character",
      ?_, by simp [ErrCodeFormat, ErrCodeFormatIllegalTag, mkErr], fun _ => rfl⟩
    have hscan : scanLine (t :: c :: rest) =
        { indent := 0, errField := some (mkErr ErrCodeFormatIllegalTag
            "item tag followed by illegal character") } := by
      rcases ht with h | h | h <;> subst h <;>
        simp [scanLine, List.takeWhile_cons, recognizeItemTag_illegal _ _ _ _ _ hc]
    simp only [List.replicate, List.nil_append] at hcl ⊢
    simp [goParseLines, applyOptions, scanTokensL, hcl, parseDocument,
      nextTokenP, scanFileStartL, htne, hscan, mkErr]
  | succ n =>
    refine ⟨mkErr ErrCodeFormatToplevelIndent "top-level item must not be indented",
      ?_, by simp [ErrCodeFormat, ErrCodeFormatToplevelIndent, mkErr], by simp⟩
    rw [List.replicate_succ, List.cons_append] at hcl
    rw [List.replicate_succ, List.cons_append]
    simp [goParseLines, applyOptions, scanTokensL, hcl, parseDocument,
      nextTokenP, scanFileStartL, mkErr]

/-- Witness for C3 at the line "-debug" (the spec's own example). -/
theorem C3_tag_illegal_char_witness :
    ('-' = '-' ∨ '-' = '>' ∨ '-' = ':') ∧ ('d' ≠ ' ') ∧ ('d' ≠ '\n') ∧
    ∃ e, goParseLines
        [List.replicate 0 ' ' ++ '-' :: 'd' :: ['e', 'b', 'u', 'g']] [] 1 =
        .ok (none, some e) ∧
      ErrCodeFormat ≤ e.code ∧ (0 = 0 → e.code = ErrCodeFormatIllegalTag) :=
  ⟨Or.inl rfl, by decide, by decide,
    C3_tag_illegal_char_error 0 '-' 'd' ['e', 'b', 'u', 'g'] 0 (Or.inl rfl)
      (by decide) (by decide)⟩

/-! ### C8: trailing content after a complete top-level item -/

/-- C8: after the top-level `parseAny` call returns in `parseDocument`, the
current token must be Eof: (1) whenever `parseDocument` succeeds with a nil
error, the scanner is positioned at the Eof token (or the document was empty);
(2) whenever the first item line is healthy and `parseAny` returns without
error but the current token is not Eof, `parseDocument` — and hence `Parse` —
returns the format error "unused content following valid input" instead of a
clean value. -/
theorem C8_trailing_content_error :
    (∀ fuel st res err st1, parseDocument fuel st = .ok (res, err, st1) →
      err = none →
      st1.token.tokenType = .eof ∨ st1.token.tokenType = .emptyDocument) ∧
    (∀ fuel st res st2,
      (nextTokenP st).token.errField = none →
      (nextTokenP st).token.tokenType ≠ .eof →
      (nextTokenP st).token.tokenType ≠ .emptyDocument →
      (nextTokenP (nextTokenP st)).token.errField = none →
      parseAny fuel 0 (nextTokenP (nextTokenP st)) = .ok (res, none, st2) →
      st2.token.tokenType ≠ .eof →
      parseDocument (fuel + 1) st =
        .ok (res, some (mkErr ErrCodeFormat
          "unused content following valid input"), st2)) := by
  constructor
  · intro fuel st res err st1 h herr
    subst herr
    match fuel with
    | 0 => simp [parseDocument] at h
    | fuel + 1 =>
      rw [parseDocument] at h
      dsimp only at h
      split at h <;> (try split at h) <;> (try split at h) <;>
        (try split at h) <;> (try split at h) <;> simp_all
  · intro fuel st res st2 h1 h2 h3 h4 h5 h6
    rw [parseDocument]
    dsimp only
    simp [h1, h2, h3, h4, h5, h6]

/-- Witness for C8 on the document "> Hello\n: key\n": the multiline string
"Hello" is complete, a `: key` token remains, and the parse returns the
"unused content following valid input" error. -/
theorem C8_trailing_content_witness :
    parseAny 8 0 (nextTokenP (nextTokenP
        { tokens := scanTokensL [['>', ' ', 'H', 'e', 'l', 'l', 'o'],
                                 [':', ' ', 'k', 'e', 'y']] })) =
      .ok (some (.str "Hello"), none,
        { tokens := [],
          token := { tokenType := .dictKeyMultiline, indent := 0,
                     content := ["key"] } }) ∧
    parseDocument 9
        { tokens := scanTokensL [['>', ' ', 'H', 'e', 'l', 'l', 'o'],
                                 [':', ' ', 'k', 'e', 'y']] } =
      .ok (some (.str "Hello"),
        some (mkErr ErrCodeFormat "unused content following valid input"),
        { tokens := [],
          token := { tokenType := .dictKeyMultiline, indent := 0,
                     content := ["key"] } }) :=
  ⟨by rfl,
    C8_trailing_content_error.2 8 _ (some (.str "Hello")) _ (by rfl)
      (by decide) (by decide) (by rfl) (by rfl) (by decide)⟩

theorem linkOK_congr (e e1 : StackEntry) (rest : List StackEntry)
    (h : linkOK (e :: rest)) (hn : e1.nontermState = e.nontermState) :
    linkOK (e1 :: rest) := by
  cases rest with
  | nil => trivial
  | cons f rest2 => exact ⟨by rw [hn]; exact h.1, h.2⟩

theorem inlineTokenFor_le (c : Char) : inlineTokenFor c ≤ 8 := by
  unfold inlineTokenFor
  split_ifs <;> omega

theorem inlineTokenFor_comma (c : Char) (h : inlineTokenFor c = 3) : c = ',' := by
  unfold inlineTokenFor at h
  split_ifs at h <;> simp_all

theorem inlineTokenFor_ne_comma (c : Char) (h : inlineTokenFor c ≠ 3) : c ≠ ',' := by
  intro hc
  subst hc
  exact h rfl

theorem inlineResolve_no_mixed (run : InlineRun) (result : Option GoVal) :
    inlineResolve run result ≠ .error .mixedItem := by
  unfold inlineResolve
  split
  · rcases hstk : run.stack with _ | ⟨tos, rest⟩
    · simp
    · rcases herr : tos.errField with _ | e <;> simp [herr]
  · simp

theorem sliceBytes_self (text : List Char) (p : Nat) :
    sliceBytes text p p = some [] ∨ sliceBytes text p p = none := by
  unfold sliceBytes
  simp only [lt_irrefl, if_false]
  match dropB p text with
  | none => right; rfl
  | some suffix => left; simp [takeB]

theorem pushKV_none_ok (e : StackEntry) (rest : List StackEntry) (v : GoVal) :
    pushKV (e :: rest) none v =
      .ok ({ e with values := e.values ++ [v] } :: rest, true) := rfl

theorem pushKV_spec (e : StackEntry) (rest : List StackEntry)
    (strOpt : Option String) (v : GoVal) :
    ∃ e1 b, pushKV (e :: rest) strOpt v = .ok (e1 :: rest, b) ∧
      e1.key = e.key ∧ e1.nontermState = e.nontermState ∧
      e1.errField = e.errField ∧
      (e1.keys = none ↔ e.keys = none) ∧
      e1.values = e.values ++ [v] ∧
      ((e.keys = none ∨ strOpt ≠ none) → balancedE e → balancedE e1) := by
  match strOpt with
  | none =>
    refine ⟨{ e with values := e.values ++ [v] }, true, rfl, rfl, rfl, rfl,
      by simp, rfl, ?_⟩
    intro hcond hbal ks hks
    simp only at hks
    rcases hcond with hnone | hne
    · rw [hnone] at hks; cases hks
    · exact absurd rfl hne
  | some k =>
    match hkeys : e.keys with
    | none =>
      refine ⟨{ e with values := e.values ++ [v] }, false, ?_, rfl, rfl, rfl,
        by simp [hkeys], rfl, ?_⟩
      · simp [pushKV, hkeys]
      · intro _ _ ks hks
        simp only [hkeys] at hks
        cases hks
    | some ks =>
      refine ⟨{ e with values := e.values ++ [v], keys := some (ks ++ [k]) },
        true, ?_, rfl, rfl, rfl, by simp [hkeys], rfl, ?_⟩
      · simp [pushKV, hkeys]
      · intro _ hbal ks1 hks1
        simp only [Option.some.injEq] at hks1
        subst hks1
        have := hbal ks hkeys
        simp [this]

theorem reduceToItem_balanced (e : StackEntry) (h : balancedE e) :
    ∃ v, reduceToItem e = .ok v := by
  unfold reduceToItem
  match hkeys : e.keys with
  | none => exact ⟨_, rfl⟩
  | some ks =>
    have hlen := h ks hkeys
    simp [hlen]

theorem appendStringValue_spec (text : List Char) (isAcc : Bool)
    (run : InlineRun) (e : StackEntry) (rest : List StackEntry)
    (hs : run.stack = e :: rest) :
    appendStringValue text isAcc run ≠ .error .mixedItem ∧
    (∀ run1, appendStringValue text isAcc run = .ok run1 →
      run1.pos = run.pos ∧ run1.marker = run.marker ∧ run1.state = run.state ∧
      ∃ e1, run1.stack = e1 :: rest ∧ e1.key = e.key ∧
        e1.nontermState = e.nontermState ∧
        (e1.keys = none ↔ e.keys = none) ∧
        ((e.key ≠ none ∨ e.keys = none) → balancedE e → balancedE e1)) := by
  unfold appendStringValue
  rcases hslice : sliceBytes text run.marker run.pos with _ | raw
  · exact ⟨by simp, by simp⟩
  · rcases hkey : e.key with _ | k0
    · by_cases hcond : (!isAcc || !raw.isEmpty || !e.values.isEmpty) = true
      · obtain ⟨e1, b, hpush, hprops⟩ :=
          pushKV_spec e rest none (.str (String.mk (trimSpaceChars raw)))
        simp only [hs, hkey, hcond, if_true, hpush]
        refine ⟨by simp, ?_⟩
        intro run1 h1
        simp only [Except.ok.injEq] at h1
        subst h1
        refine ⟨rfl, rfl, rfl, e1, rfl, hprops.1.trans hkey, hprops.2.1,
          hprops.2.2.2.1, ?_⟩
        intro hc hbal
        refine hprops.2.2.2.2.2 ?_ hbal
        rcases hc with hc | hc
        · exact absurd rfl hc
        · exact Or.inl hc
      · simp only [Bool.not_eq_true] at hcond
        simp only [hs, hkey, hcond, Bool.false_eq_true, if_false]
        refine ⟨by simp, ?_⟩
        intro run1 h1
        simp only [Except.ok.injEq] at h1
        subst h1
        exact ⟨rfl, rfl, rfl, e, hs, hkey, rfl, Iff.rfl, fun _ hbal => hbal⟩
    · obtain ⟨e1, b, hpush, hprops⟩ :=
        pushKV_spec e rest (some k0) (.str (String.mk (trimSpaceChars raw)))
      simp only [hs, hkey, hpush]
      refine ⟨by simp, ?_⟩
      intro run1 h1
      simp only [Except.ok.injEq] at h1
      subst h1
      refine ⟨rfl, rfl, rfl, e1, rfl, hprops.1.trans hkey, hprops.2.1,
        hprops.2.2.2.1, ?_⟩
      intro _ hbal
      exact hprops.2.2.2.2.2 (Or.inr (by simp)) hbal

theorem appendStringValue_skip (text : List Char) (run : InlineRun)
    (e : StackEntry) (rest : List StackEntry) (hs : run.stack = e :: rest)
    (hkey : e.key = none) (hmp : run.marker = run.pos) (hv : e.values = []) :
    appendStringValue text true run = .ok run ∨
    appendStringValue text true run = .error .indexRange := by
  unfold appendStringValue
  rw [hmp]
  rcases sliceBytes_self text run.pos with h | h
  · rw [h, hs]
    left
    simp [hkey, hv, hs]
  · rw [h]
    right
    rfl

theorem stepBreak_spec (run : InlineRun) (result : Option GoVal) :
    stepBreak run result ≠ .error .mixedItem ∧
    (∀ run1 result1, stepBreak run result = .ok (.inr (run1, result1)) →
      InvI run1) := by
  unfold stepBreak
  rcases h : inlineResolve run result with p | out
  · refine ⟨?_, by simp⟩
    intro hmix
    simp only [Except.error.injEq] at hmix
    subst hmix
    exact inlineResolve_no_mixed run result h
  · exact ⟨by simp, by simp⟩

theorem stepAccept_spec (w : Nat) (run3 : InlineRun) (e3 : StackEntry)
    (rest3 : List StackEntry) (hs : run3.stack = e3 :: rest3)
    (hball : ∀ f ∈ e3 :: rest3, balancedE f)
    (hlink : linkOK (e3 :: rest3)) :
    stepAccept w run3 ≠ .error .mixedItem ∧
    (∀ run1 r1, stepAccept w run3 = .ok (run1, r1) → InvI run1) := by
  unfold stepAccept
  rw [hs]
  dsimp only
  obtain ⟨v, hred⟩ := reduceToItem_balanced e3 (hball e3 (by simp))
  rw [hred]
  match rest3, hball, hlink, hs with
  | [], _, _, _ =>
    refine ⟨by simp, ?_⟩
    intro run1 r1 h1
    simp only [Except.ok.injEq, Prod.mk.injEq] at h1
    rw [← h1.1]
    exact trivial
  | parent :: rest4, hball, hlink, hs =>
    have hpair := hlink.1
    have hcond : parent.keys = none ∨ parent.key ≠ none := by
      rcases hk : parent.keys with _ | ks
      · exact Or.inl rfl
      · exact Or.inr (hpair.1 (by simp [hk])).2
    obtain ⟨e1, b, hpush, hkeyeq, hnonterm, herr, hkeysiff, hvals, hbalpres⟩ :=
      pushKV_spec parent rest4 parent.key v
    dsimp only
    rw [hpush]
    refine ⟨by simp, ?_⟩
    intro run1 r1 h1
    simp only [Except.ok.injEq, Prod.mk.injEq] at h1
    obtain ⟨h1a, -⟩ := h1
    rw [← h1a]
    have hbal1 : balancedE e1 := hbalpres hcond (hball parent (by simp))
    have hballall : ∀ f ∈ e1 :: rest4, balancedE f := by
      intro f hf
      rcases List.mem_cons.mp hf with hf | hf
      · subst hf; exact hbal1
      · exact hball f (by simp [hf])
    have hlink1 : linkOK (e1 :: rest4) :=
      linkOK_congr parent e1 rest4 hlink.2 hnonterm
    unfold InvI
    dsimp only
    simp only [InvS]
    rcases hk : parent.keys with _ | ks
    · have h10 : e3.nontermState = 10 := hpair.2 hk
      rw [h10]
      refine ⟨hballall, hlink1, ?_, ?_, ?_, ?_, ?_, Or.inr (by simp [listState])⟩
      · intro hds; exact absurd hds (by simp [dictState])
      · intro _; exact hkeysiff.mpr hk
      · intro hks; exact absurd hks (by simp [keyState])
      · intro h1s; exact absurd h1s (by decide)
      · intro h11s; exact absurd h11s (by decide)
    · obtain ⟨h5, hkeyne⟩ := hpair.1 (by simp [hk])
      rw [h5]
      refine ⟨hballall, hlink1, ?_, ?_, ?_, ?_, ?_, Or.inl (by simp [dictState])⟩
      · intro _
        intro hn
        rw [hkeysiff, hk] at hn
        cases hn
      · intro hls; exact absurd hls (by simp [listState])
      · intro _
        rw [hkeyeq]
        exact hkeyne
      · intro h1s; exact absurd h1s (by decide)
      · intro h11s; exact absurd h11s (by decide)

theorem stepInvAt12 (text : List Char) (c : Char) (run : InlineRun)
    (result : Option GoVal) (e : StackEntry) (rest : List StackEntry)
    (hs : run.stack = e :: rest) (hinv : InvI run) (hstate : run.state = 12) :
    inlineStep text c run result ≠ .error .mixedItem ∧
    (∀ run1 result1,
      inlineStep text c run result = .ok (.inr (run1, result1)) → InvI run1) := by
  unfold InvI at hinv
  rw [hs] at hinv
  simp only [InvS] at hinv
  obtain ⟨hbal, hlink, hdict, hlist, hkey, hst1, hst11, hrange⟩ := hinv
  rw [hstate] at hdict hlist hkey hst1 hst11
  obtain ⟨k, hk⟩ : ∃ k, inlineTokenFor c = k := ⟨_, rfl⟩
  have hkle : k ≤ 8 := hk ▸ inlineTokenFor_le c
  interval_cases k
  -- k = 0
  · simp only [inlineStep, hstate, hk]
    norm_num [inlineStateMachine, smRow]
    exact stepBreak_spec _ _
  -- k = 1
  · simp only [inlineStep, hstate, hk]
    norm_num [inlineStateMachine, smRow]
    exact stepBreak_spec _ _
  -- k = 2
  · simp only [inlineStep, hstate, hk]
    norm_num [inlineStateMachine, smRow]
    exact stepBreak_spec _ _
  -- k = 3
  · simp only [inlineStep, hstate, hk]
    norm_num [inlineStateMachine, smRow]
    exact stepBreak_spec _ _
  -- k = 4
  · simp only [inlineStep, hstate, hk]
    norm_num [inlineStateMachine, smRow]
    exact stepBreak_spec _ _
  -- k = 5 : '[' → state 7, action 7, no append since c ≠ ','
  · have hcne : c ≠ ',' := inlineTokenFor_ne_comma c (by rw [hk]; decide)
    simp only [inlineStep, hstate, hk]
    norm_num [inlineStateMachine, smRow, inlineAction, hcne]
    refine ⟨by simp, ?_⟩
    unfold InvI
    dsimp only
    rw [hs]
    simp only [InvS]
    refine ⟨hbal, hlink, ?_, ?_, ?_, ?_, ?_, Or.inr (by decide)⟩
    · intro hd; exact absurd hd (by decide)
    · intro _; exact hlist (by decide)
    · intro hkk; exact absurd hkk (by decide)
    · intro h1s; exact absurd h1s (by decide)
    · intro h11s; exact absurd h11s (by decide)
  -- k = 6
  · simp only [inlineStep, hstate, hk]
    norm_num [inlineStateMachine, smRow]
    exact stepBreak_spec _ _
  -- k = 7
  · simp only [inlineStep, hstate, hk]
    norm_num [inlineStateMachine, smRow]
    exact stepBreak_spec _ _
  -- k = 8
  · simp only [inlineStep, hstate, hk]
    norm_num [inlineStateMachine, smRow]
    exact stepBreak_spec _ _

theorem stepInvAt11 (text : List Char) (c : Char) (run : InlineRun)
    (result : Option GoVal) (e : StackEntry) (rest : List StackEntry)
    (hs : run.stack = e :: rest) (hinv : InvI run) (hstate : run.state = 11) :
    inlineStep text c run result ≠ .error .mixedItem ∧
    (∀ run1 result1,
      inlineStep text c run result = .ok (.inr (run1, result1)) → InvI run1) := by
  unfold InvI at hinv
  rw [hs] at hinv
  simp only [InvS] at hinv
  obtain ⟨hbal, hlink, hdict, hlist, hkey, hst1, hst11, hrange⟩ := hinv
  rw [hstate] at hdict hlist hkey hst1 hst11
  obtain ⟨k, hk⟩ : ∃ k, inlineTokenFor c = k := ⟨_, rfl⟩
  have hkle : k ≤ 8 := hk ▸ inlineTokenFor_le c
  interval_cases k
  all_goals try (simp only [inlineStep, hstate, hk]; norm_num [inlineStateMachine, smRow]; exact stepBreak_spec _ _)
  -- k = 7 : '{' → state 1, action 1 (marker := pos + w)
  · simp only [inlineStep, hstate, hk]
    norm_num [inlineStateMachine, smRow, inlineAction]
    refine ⟨by simp, ?_⟩
    unfold InvI
    dsimp only
    rw [hs]
    simp only [InvS]
    obtain ⟨hv, hkn⟩ := hst11 rfl
    refine ⟨hbal, hlink, fun _ => hdict (by decide), ?_, ?_, ?_, ?_,
      Or.inl (by decide)⟩
    · intro hl; exact absurd hl (by decide)
    · intro hkk; exact absurd hkk (by decide)
    · intro _; exact ⟨trivial, hv, hkn⟩
    · intro h11s; exact absurd h11s (by decide)

theorem stepInvAt2 (text : List Char) (c : Char) (run : InlineRun)
    (result : Option GoVal) (e : StackEntry) (rest : List StackEntry)
    (hs : run.stack = e :: rest) (hinv : InvI run) (hstate : run.state = 2) :
    inlineStep text c run result ≠ .error .mixedItem ∧
    (∀ run1 result1,
      inlineStep text c run result = .ok (.inr (run1, result1)) → InvI run1) := by
  unfold InvI at hinv
  rw [hs] at hinv
  simp only [InvS] at hinv
  obtain ⟨hbal, hlink, hdict, hlist, hkey, hst1, hst11, hrange⟩ := hinv
  rw [hstate] at hdict hlist hkey hst1 hst11
  obtain ⟨k, hk⟩ : ∃ k, inlineTokenFor c = k := ⟨_, rfl⟩
  have hkle : k ≤ 8 := hk ▸ inlineTokenFor_le c
  interval_cases k
  all_goals try (simp only [inlineStep, hstate, hk]; norm_num [inlineStateMachine, smRow]; exact stepBreak_spec _ _)
  -- k = 0 : ordinary character → state 2 (nop)
  · simp only [inlineStep, hstate, hk]
    norm_num [inlineStateMachine, smRow, inlineAction]
    refine ⟨by simp, ?_⟩
    unfold InvI
    dsimp only
    rw [hs]
    simp only [InvS]
    refine ⟨hbal, hlink, fun _ => hdict (by decide), ?_, ?_, ?_, ?_,
      Or.inl (by decide)⟩
    · intro hl; exact absurd hl (by decide)
    · intro hkk; exact absurd hkk (by decide)
    · intro h1s; exact absurd h1s (by decide)
    · intro h11s; exact absurd h11s (by decide)
  -- k = 1 : whitespace → state 2 (nop)
  · simp only [inlineStep, hstate, hk]
    norm_num [inlineStateMachine, smRow, inlineAction]
    refine ⟨by simp, ?_⟩
    unfold InvI
    dsimp only
    rw [hs]
    simp only [InvS]
    refine ⟨hbal, hlink, fun _ => hdict (by decide), ?_, ?_, ?_, ?_,
      Or.inl (by decide)⟩
    · intro hl; exact absurd hl (by decide)
    · intro hkk; exact absurd hkk (by decide)
    · intro h1s; exact absurd h1s (by decide)
    · intro h11s; exact absurd h11s (by decide)
  -- k = 4 : colon → state 3 (action 3: close the key fragment)
  · simp only [inlineStep, hstate, hk]
    norm_num [inlineStateMachine, smRow, inlineAction]
    rcases hsl : sliceBytes text run.marker run.pos with _ | raw
    · simp [hsl]
    · simp only [hsl, hs, setTosKey]
      norm_num
      refine ⟨by simp, ?_⟩
      unfold InvI
      dsimp only
      simp only [InvS]
      refine ⟨?_, ?_, ?_, ?_, ?_, ?_, ?_, Or.inl (by decide)⟩
      · intro f hf
        rcases List.mem_cons.mp hf with hf | hf
        · subst hf
          intro ks hks
          exact hbal e (by simp) ks hks
        · exact hbal f (by simp [hf])
      · exact linkOK_congr e _ rest hlink rfl
      · intro _
        simpa using hdict (by decide)
      · intro hl; exact absurd hl (by decide)
      · intro _; simp
      · intro h1s; exact absurd h1s (by decide)
      · intro h11s; exact absurd h11s (by decide)

theorem stepInvAt9 (text : List Char) (c : Char) (run : InlineRun)
    (result : Option GoVal) (e : StackEntry) (rest : List StackEntry)
    (hs : run.stack = e :: rest) (hinv : InvI run) (hstate : run.state = 9) :
    inlineStep text c run result ≠ .error .mixedItem ∧
    (∀ run1 result1,
      inlineStep text c run result = .ok (.inr (run1, result1)) → InvI run1) := by
  unfold InvI at hinv
  rw [hs] at hinv
  simp only [InvS] at hinv
  obtain ⟨hbal, hlink, hdict, hlist, hkey, hst1, hst11, hrange⟩ := hinv
  rw [hstate] at hdict hlist hkey hst1 hst11
  obtain ⟨k, hk⟩ : ∃ k, inlineTokenFor c = k := ⟨_, rfl⟩
  have hkle : k ≤ 8 := hk ▸ inlineTokenFor_le c
  interval_cases k
  all_goals try (simp only [inlineStep, hstate, hk]; norm_num [inlineStateMachine, smRow]; exact stepBreak_spec _ _)
  -- k = 0 : ordinary character → state 9 (nop)
  · simp only [inlineStep, hstate, hk]
    norm_num [inlineStateMachine, smRow, inlineAction]
    refine ⟨by simp, ?_⟩
    unfold InvI
    dsimp only
    rw [hs]
    simp only [InvS]
    refine ⟨hbal, hlink, ?_, fun _ => hlist (by decide), ?_, ?_, ?_,
      Or.inr (by decide)⟩
    · intro hd; exact absurd hd (by decide)
    · intro hkk; exact absurd hkk (by decide)
    · intro h1s; exact absurd h1s (by decide)
    · intro h11s; exact absurd h11s (by decide)
  -- k = 1 : whitespace → state 9 (nop)
  · simp only [inlineStep, hstate, hk]
    norm_num [inlineStateMachine, smRow, inlineAction]
    refine ⟨by simp, ?_⟩
    unfold InvI
    dsimp only
    rw [hs]
    simp only [InvS]
    refine ⟨hbal, hlink, ?_, fun _ => hlist (by decide), ?_, ?_, ?_,
      Or.inr (by decide)⟩
    · intro hd; exact absurd hd (by decide)
    · intro hkk; exact absurd hkk (by decide)
    · intro h1s; exact absurd h1s (by decide)
    · intro h11s; exact absurd h11s (by decide)
  -- k = 3 : comma → state 7 (action 7: append pending value)
  · have hc : c = ',' := inlineTokenFor_comma c hk
    simp only [inlineStep, hstate, hk]
    norm_num [inlineStateMachine, smRow, inlineAction, hc, isGhost]
    by_cases hm : run.marker > 0
    · simp only [hm, if_true]
      obtain ⟨hnomix, hok⟩ := appendStringValue_spec text false run e rest hs
      rcases happ : appendStringValue text false run with p | run1
      · simp only [happ]
        refine ⟨?_, by simp⟩
        intro hmix
        simp only [Except.error.injEq] at hmix
        subst hmix
        exact hnomix happ
      · simp only [happ]
        obtain ⟨hpos, hmark, hstt, e1, hs1, hkey1, hnt1, hkeys1, hbal1⟩ :=
          hok run1 happ
        refine ⟨by simp, ?_⟩
        intro run2 result2 h2
        rw [if_neg (show ¬ (true = false) by decide)] at h2
        simp only [Except.ok.injEq, Sum.inr.injEq, Prod.mk.injEq] at h2
        rw [← h2.1]
        unfold InvI
        dsimp only
        rw [hs1]
        simp only [InvS]
        refine ⟨?_, ?_, ?_, ?_, ?_, ?_, ?_, Or.inr (by decide)⟩
        · intro f hf
          rcases List.mem_cons.mp hf with hf | hf
          · subst hf
            exact hbal1 (Or.inr (hlist (by decide))) (hbal e (by simp))
          · exact hbal f (by simp [hf])
        · exact linkOK_congr e e1 rest hlink hnt1
        · intro hd; exact absurd hd (by decide)
        · intro _; exact hkeys1.mpr (hlist (by decide))
        · intro hkk; exact absurd hkk (by decide)
        · intro h1s; exact absurd h1s (by decide)
        · intro h11s; exact absurd h11s (by decide)
    · simp only [hm, if_false]
      refine ⟨by simp, ?_⟩
      intro run1 result1 h1
      rw [if_neg (show ¬ (true = false) by decide)] at h1
      simp only [Except.ok.injEq, Sum.inr.injEq, Prod.mk.injEq] at h1
      rw [← h1.1]
      unfold InvI
      dsimp only
      rw [hs]
      simp only [InvS]
      refine ⟨hbal, hlink, ?_, fun _ => hlist (by decide), ?_, ?_, ?_,
        Or.inr (by decide)⟩
      · intro hd; exact absurd hd (by decide)
      · intro hkk; exact absurd hkk (by decide)
      · intro h1s; exact absurd h1s (by decide)
      · intro h11s; exact absurd h11s (by decide)
  -- k = 4 : colon → state 9 (nop)
  · simp only [inlineStep, hstate, hk]
    norm_num [inlineStateMachine, smRow, inlineAction]
    refine ⟨by simp, ?_⟩
    unfold InvI
    dsimp only
    rw [hs]
    simp only [InvS]
    refine ⟨hbal, hlink, ?_, fun _ => hlist (by decide), ?_, ?_, ?_,
      Or.inr (by decide)⟩
    · intro hd; exact absurd hd (by decide)
    · intro hkk; exact absurd hkk (by decide)
    · intro h1s; exact absurd h1s (by decide)
    · intro h11s; exact absurd h11s (by decide)
  -- k = 6 : closing bracket → accept state A2
  · simp only [inlineStep, hstate, hk]
    norm_num [inlineStateMachine, smRow, inlineAction, isGhost]
    by_cases hm : run.marker > 0
    · simp only [hm, if_true]
      obtain ⟨hnomix, hok⟩ := appendStringValue_spec text true run e rest hs
      rcases happ : appendStringValue text true run with p | run1
      · simp only [happ]
        refine ⟨?_, by simp⟩
        intro hmix
        simp only [Except.error.injEq] at hmix
        subst hmix
        exact hnomix happ
      · simp only [happ]
        obtain ⟨hpos, hmark, hstt, e1, hs1, hkey1, hnt1, hkeys1, hbal1⟩ :=
          hok run1 happ
        have hball1 : ∀ f ∈ e1 :: rest, balancedE f := by
          intro f hf
          rcases List.mem_cons.mp hf with hf | hf
          · subst hf
            exact hbal1 (Or.inr (hlist (by decide))) (hbal e (by simp))
          · exact hbal f (by simp [hf])
        obtain ⟨haccmix, haccok⟩ := stepAccept_spec c.utf8Size run1 e1 rest hs1
          hball1 (linkOK_congr e e1 rest hlink hnt1)
        rcases hacc : stepAccept c.utf8Size run1 with p | out
        · simp only [hacc]
          refine ⟨?_, by simp⟩
          intro hmix
          rw [if_neg (show ¬ (true = false) by decide)] at hmix
          simp only [Except.error.injEq] at hmix
          subst hmix
          exact haccmix hacc
        · simp only [hacc]
          refine ⟨by simp, ?_⟩
          intro run2 result2 h2
          rcases out with ⟨run3, r3⟩
          rw [if_neg (show ¬ (true = false) by decide)] at h2
          simp only [Except.ok.injEq, Sum.inr.injEq, Prod.mk.injEq] at h2
          obtain ⟨hr, hres⟩ := h2
          subst hr
          subst hres
          exact haccok run3 r3 hacc
    · simp only [hm, if_false]
      obtain ⟨haccmix, haccok⟩ := stepAccept_spec c.utf8Size run e rest hs hbal hlink
      rcases hacc : stepAccept c.utf8Size run with p | out
      · simp only [hacc]
        refine ⟨?_, by simp⟩
        intro hmix
        rw [if_neg (show ¬ (true = false) by decide)] at hmix
        simp only [Except.error.injEq] at hmix
        subst hmix
        exact haccmix hacc
      · simp only [hacc]
        refine ⟨by simp, ?_⟩
        intro run2 result2 h2
        rcases out with ⟨run3, r3⟩
        rw [if_neg (show ¬ (true = false) by decide)] at h2
        simp only [Except.ok.injEq, Sum.inr.injEq, Prod.mk.injEq] at h2
        obtain ⟨hr, hres⟩ := h2
        subst hr
        subst hres
        exact haccok run3 r3 hacc

theorem stepInvAt4 (text : List Char) (c : Char) (run : InlineRun)
    (result : Option GoVal) (e : StackEntry) (rest : List StackEntry)
    (hs : run.stack = e :: rest) (hinv : InvI run) (hstate : run.state = 4) :
    inlineStep text c run result ≠ .error .mixedItem ∧
    (∀ run1 result1,
      inlineStep text c run result = .ok (.inr (run1, result1)) → InvI run1) := by
  unfold InvI at hinv
  rw [hs] at hinv
  simp only [InvS] at hinv
  obtain ⟨hbal, hlink, hdict, hlist, hkey, hst1, hst11, hrange⟩ := hinv
  rw [hstate] at hdict hlist hkey hst1 hst11
  obtain ⟨k, hk⟩ : ∃ k, inlineTokenFor c = k := ⟨_, rfl⟩
  have hkle : k ≤ 8 := hk ▸ inlineTokenFor_le c
  interval_cases k
  all_goals try (simp only [inlineStep, hstate, hk]; norm_num [inlineStateMachine, smRow]; exact stepBreak_spec _ _)
  -- k = 0 : ordinary character → state 4 (nop)
  · simp only [inlineStep, hstate, hk]
    norm_num [inlineStateMachine, smRow, inlineAction]
    refine ⟨by simp, ?_⟩
    unfold InvI
    dsimp only
    rw [hs]
    simp only [InvS]
    refine ⟨hbal, hlink, fun _ => hdict (by decide), ?_,
      fun _ => hkey (by decide), ?_, ?_, Or.inl (by decide)⟩
    · intro hl; exact absurd hl (by decide)
    · intro h1s; exact absurd h1s (by decide)
    · intro h11s; exact absurd h11s (by decide)
  -- k = 1 : whitespace → state 4 (nop)
  · simp only [inlineStep, hstate, hk]
    norm_num [inlineStateMachine, smRow, inlineAction]
    refine ⟨by simp, ?_⟩
    unfold InvI
    dsimp only
    rw [hs]
    simp only [InvS]
    refine ⟨hbal, hlink, fun _ => hdict (by decide), ?_,
      fun _ => hkey (by decide), ?_, ?_, Or.inl (by decide)⟩
    · intro hl; exact absurd hl (by decide)
    · intro h1s; exact absurd h1s (by decide)
    · intro h11s; exact absurd h11s (by decide)
  -- k = 3 : comma → state 6 (action 6: close pending value, clear the key)
  · simp only [inlineStep, hstate, hk]
    norm_num [inlineStateMachine, smRow, inlineAction, isGhost]
    by_cases hm : run.marker > 0
    · simp only [hm, if_true]
      obtain ⟨hnomix, hok⟩ := appendStringValue_spec text false run e rest hs
      rcases happ : appendStringValue text false run with p | run1
      · simp only [happ]
        refine ⟨?_, by simp⟩
        intro hmix
        try rw [if_neg (show ¬ (true = false) by decide)] at hmix
        injection hmix with hp
        exact hnomix (hp ▸ happ)
      · simp only [happ]
        obtain ⟨hpos, hmark, hstt, e1, hs1, hkey1, hnt1, hkeys1, hbal1⟩ :=
          hok run1 happ
        simp only [hs1, setTosKey]
        have hbal1In : balancedE e1 :=
          hbal1 (Or.inl (hkey (by decide))) (hbal e (by simp))
        refine ⟨by simp, ?_⟩
        intro run2 result2 h2
        try rw [if_neg (show ¬ (true = false) by decide)] at h2
        simp only [Except.ok.injEq, Sum.inr.injEq, Prod.mk.injEq] at h2
        rw [← h2.1]
        unfold InvI
        dsimp only
        simp only [InvS]
        refine ⟨?_, linkOK_congr e _ rest hlink hnt1, ?_, ?_, ?_, ?_, ?_,
          Or.inl (by decide)⟩
        · intro f hf
          rcases List.mem_cons.mp hf with hf | hf
          · subst hf
            intro ks hks
            exact hbal1In ks hks
          · exact hbal f (by simp [hf])
        · intro _ hn
          exact hdict (by decide) (hkeys1.mp hn)
        · intro hl; exact absurd hl (by decide)
        · intro hkk; exact absurd hkk (by decide)
        · intro h1s; exact absurd h1s (by decide)
        · intro h11s; exact absurd h11s (by decide)
    · simp only [hm, if_false]
      simp only [hs, setTosKey]
      refine ⟨by simp, ?_⟩
      intro run2 result2 h2
      rw [if_neg (show ¬ (true = false) by decide)] at h2
      simp only [Except.ok.injEq, Sum.inr.injEq, Prod.mk.injEq] at h2
      rw [← h2.1]
      unfold InvI
      dsimp only
      simp only [InvS]
      refine ⟨?_, linkOK_congr e _ rest hlink rfl, ?_, ?_, ?_, ?_, ?_,
        Or.inl (by decide)⟩
      · intro f hf
        rcases List.mem_cons.mp hf with hf | hf
        · subst hf
          intro ks hks
          exact hbal e (by simp) ks hks
        · exact hbal f (by simp [hf])
      · intro _ hn
        exact hdict (by decide) hn
      · intro hl; exact absurd hl (by decide)
      · intro hkk; exact absurd hkk (by decide)
      · intro h1s; exact absurd h1s (by decide)
      · intro h11s; exact absurd h11s (by decide)
  -- k = 8 : closing brace → accept state A1
  · simp only [inlineStep, hstate, hk]
    norm_num [inlineStateMachine, smRow, inlineAction, isGhost]
    by_cases hm : run.marker > 0
    · simp only [hm, if_true]
      obtain ⟨hnomix, hok⟩ := appendStringValue_spec text true run e rest hs
      rcases happ : appendStringValue text true run with p | run1
      · simp only [happ]
        refine ⟨?_, by simp⟩
        intro hmix
        try rw [if_neg (show ¬ (true = false) by decide)] at hmix
        injection hmix with hp
        exact hnomix (hp ▸ happ)
      · simp only [happ]
        obtain ⟨hpos, hmark, hstt, e1, hs1, hkey1, hnt1, hkeys1, hbal1⟩ :=
          hok run1 happ
        have hball1 : ∀ f ∈ e1 :: rest, balancedE f := by
          intro f hf
          rcases List.mem_cons.mp hf with hf | hf
          · subst hf
            exact hbal1 (Or.inl (hkey (by decide))) (hbal e (by simp))
          · exact hbal f (by simp [hf])
        obtain ⟨haccmix, haccok⟩ := stepAccept_spec c.utf8Size run1 e1 rest hs1
          hball1 (linkOK_congr e e1 rest hlink hnt1)
        rcases hacc : stepAccept c.utf8Size run1 with p | out
        · simp only [hacc]
          refine ⟨?_, by simp⟩
          intro hmix
          try rw [if_neg (show ¬ (true = false) by decide)] at hmix
          injection hmix with hp
          exact haccmix (hp ▸ hacc)
        · simp only [hacc]
          refine ⟨by simp, ?_⟩
          intro run2 result2 h2
          rcases out with ⟨run3, r3⟩
          try rw [if_neg (show ¬ (true = false) by decide)] at h2
          simp only [Except.ok.injEq, Sum.inr.injEq, Prod.mk.injEq] at h2
          obtain ⟨hr, hres⟩ := h2
          subst hr
          subst hres
          exact haccok run3 r3 hacc
    · simp only [hm, if_false]
      obtain ⟨haccmix, haccok⟩ := stepAccept_spec c.utf8Size run e rest hs hbal hlink
      rcases hacc : stepAccept c.utf8Size run with p | out
      · simp only [hacc]
        refine ⟨?_, by simp⟩
        intro hmix
        try rw [if_neg (show ¬ (true = false) by decide)] at hmix
        injection hmix with hp
        exact haccmix (hp ▸ hacc)
      · simp only [hacc]
        refine ⟨by simp, ?_⟩
        intro run2 result2 h2
        rcases out with ⟨run3, r3⟩
        try rw [if_neg (show ¬ (true = false) by decide)] at h2
        simp only [Except.ok.injEq, Sum.inr.injEq, Prod.mk.injEq] at h2
        obtain ⟨hr, hres⟩ := h2
        subst hr
        subst hres
        exact haccok run3 r3 hacc

theorem stepInvAt3 (text : List Char) (c : Char) (run : InlineRun)
    (result : Option GoVal) (e : StackEntry) (rest : List StackEntry)
    (hs : run.stack = e :: rest) (hinv : InvI run) (hstate : run.state = 3) :
    inlineStep text c run result ≠ .error .mixedItem ∧
    (∀ run1 result1,
      inlineStep text c run result = .ok (.inr (run1, result1)) → InvI run1) := by
  unfold InvI at hinv
  rw [hs] at hinv
  simp only [InvS] at hinv
  obtain ⟨hbal, hlink, hdict, hlist, hkey, hst1, hst11, hrange⟩ := hinv
  rw [hstate] at hdict hlist hkey hst1 hst11
  obtain ⟨k, hk⟩ : ∃ k, inlineTokenFor c = k := ⟨_, rfl⟩
  have hkle : k ≤ 8 := hk ▸ inlineTokenFor_le c
  interval_cases k
  all_goals try (simp only [inlineStep, hstate, hk]; norm_num [inlineStateMachine, smRow]; exact stepBreak_spec _ _)
  -- k = 0 : ordinary character → state 4 (nop)
  · simp only [inlineStep, hstate, hk]
    norm_num [inlineStateMachine, smRow, inlineAction]
    refine ⟨by simp, ?_⟩
    unfold InvI
    dsimp only
    rw [hs]
    simp only [InvS]
    refine ⟨hbal, hlink, fun _ => hdict (by decide), ?_,
      fun _ => hkey (by decide), ?_, ?_, Or.inl (by decide)⟩
    · intro hl; exact absurd hl (by decide)
    · intro h1s; exact absurd h1s (by decide)
    · intro h11s; exact absurd h11s (by decide)
  -- k = 1 : whitespace → state 3 (action 3 with oldS = 3: nop)
  · simp only [inlineStep, hstate, hk]
    norm_num [inlineStateMachine, smRow, inlineAction]
    refine ⟨by simp, ?_⟩
    unfold InvI
    dsimp only
    rw [hs]
    simp only [InvS]
    refine ⟨hbal, hlink, fun _ => hdict (by decide), ?_,
      fun _ => hkey (by decide), ?_, ?_, Or.inl (by decide)⟩
    · intro hl; exact absurd hl (by decide)
    · intro h1s; exact absurd h1s (by decide)
    · intro h11s; exact absurd h11s (by decide)
  -- k = 3 : comma → state 6 (action 6: close pending value, clear the key)
  · simp only [inlineStep, hstate, hk]
    norm_num [inlineStateMachine, smRow, inlineAction, isGhost]
    by_cases hm : run.marker > 0
    · simp only [hm, if_true]
      obtain ⟨hnomix, hok⟩ := appendStringValue_spec text false run e rest hs
      rcases happ : appendStringValue text false run with p | run1
      · simp only [happ]
        refine ⟨?_, by simp⟩
        intro hmix
        try rw [if_neg (show ¬ (true = false) by decide)] at hmix
        injection hmix with hp
        exact hnomix (hp ▸ happ)
      · simp only [happ]
        obtain ⟨hpos, hmark, hstt, e1, hs1, hkey1, hnt1, hkeys1, hbal1⟩ :=
          hok run1 happ
        simp only [hs1, setTosKey]
        have hbal1In : balancedE e1 :=
          hbal1 (Or.inl (hkey (by decide))) (hbal e (by simp))
        refine ⟨by simp, ?_⟩
        intro run2 result2 h2
        try rw [if_neg (show ¬ (true = false) by decide)] at h2
        simp only [Except.ok.injEq, Sum.inr.injEq, Prod.mk.injEq] at h2
        rw [← h2.1]
        unfold InvI
        dsimp only
        simp only [InvS]
        refine ⟨?_, linkOK_congr e _ rest hlink hnt1, ?_, ?_, ?_, ?_, ?_,
          Or.inl (by decide)⟩
        · intro f hf
          rcases List.mem_cons.mp hf with hf | hf
          · subst hf
            intro ks hks
            exact hbal1In ks hks
          · exact hbal f (by simp [hf])
        · intro _ hn
          exact hdict (by decide) (hkeys1.mp hn)
        · intro hl; exact absurd hl (by decide)
        · intro hkk; exact absurd hkk (by decide)
        · intro h1s; exact absurd h1s (by decide)
        · intro h11s; exact absurd h11s (by decide)
    · simp only [hm, if_false]
      simp only [hs, setTosKey]
      refine ⟨by simp, ?_⟩
      intro run2 result2 h2
      try rw [if_neg (show ¬ (true = false) by decide)] at h2
      simp only [Except.ok.injEq, Sum.inr.injEq, Prod.mk.injEq] at h2
      rw [← h2.1]
      unfold InvI
      dsimp only
      simp only [InvS]
      refine ⟨?_, linkOK_congr e _ rest hlink rfl, ?_, ?_, ?_, ?_, ?_,
        Or.inl (by decide)⟩
      · intro f hf
        rcases List.mem_cons.mp hf with hf | hf
        · subst hf
          intro ks hks
          exact hbal e (by simp) ks hks
        · exact hbal f (by simp [hf])
      · intro _ hn
        exact hdict (by decide) hn
      · intro hl; exact absurd hl (by decide)
      · intro hkk; exact absurd hkk (by decide)
      · intro h1s; exact absurd h1s (by decide)
      · intro h11s; exact absurd h11s (by decide)
  -- k = 5 : '[' → push a list frame, continue at state 7
  · have hcne : c ≠ ',' := inlineTokenFor_ne_comma c (by rw [hk]; decide)
    simp only [inlineStep, hstate, hk]
    norm_num [inlineStateMachine, smRow, inlineAction, pseudoS, isGhost, hcne]
    refine ⟨by simp, ?_⟩
    unfold InvI
    dsimp only
    rw [hs]
    simp only [InvS]
    refine ⟨?_, ?_, ?_, ?_, ?_, ?_, ?_, Or.inr (by decide)⟩
    · intro f hf
      rcases List.mem_cons.mp hf with hf | hf
      · subst hf
        intro ks hks
        cases hks
      · exact hbal f (by simp [hf])
    · exact ⟨⟨fun _ => ⟨rfl, hkey (by decide)⟩,
        fun hn => absurd hn (hdict (by decide))⟩, hlink⟩
    · intro hd; exact absurd hd (by decide)
    · intro _; trivial
    · intro hkk; exact absurd hkk (by decide)
    · intro h1s; exact absurd h1s (by decide)
    · intro h11s; exact absurd h11s (by decide)
  -- k = 7 : '{' → push a dict frame, continue at state 1
  · simp only [inlineStep, hstate, hk]
    norm_num [inlineStateMachine, smRow, inlineAction, pseudoS, isGhost]
    refine ⟨by simp, ?_⟩
    unfold InvI
    dsimp only
    rw [hs]
    simp only [InvS]
    refine ⟨?_, ?_, ?_, ?_, ?_, ?_, ?_, Or.inl (by decide)⟩
    · intro f hf
      rcases List.mem_cons.mp hf with hf | hf
      · subst hf
        intro ks hks
        cases hks
        rfl
      · exact hbal f (by simp [hf])
    · exact ⟨⟨fun _ => ⟨rfl, hkey (by decide)⟩,
        fun hn => absurd hn (hdict (by decide))⟩, hlink⟩
    · intro _; simp
    · intro hl; exact absurd hl (by decide)
    · intro hkk; exact absurd hkk (by decide)
    · intro _; refine ⟨?_, ?_, ?_⟩ <;> trivial
    · intro h11s; exact absurd h11s (by decide)
  -- k = 8 : closing brace → accept state A1
  · simp only [inlineStep, hstate, hk]
    norm_num [inlineStateMachine, smRow, inlineAction, isGhost]
    by_cases hm : run.marker > 0
    · simp only [hm, if_true]
      obtain ⟨hnomix, hok⟩ := appendStringValue_spec text true run e rest hs
      rcases happ : appendStringValue text true run with p | run1
      · simp only [happ]
        refine ⟨?_, by simp⟩
        intro hmix
        try rw [if_neg (show ¬ (true = false) by decide)] at hmix
        injection hmix with hp
        exact hnomix (hp ▸ happ)
      · simp only [happ]
        obtain ⟨hpos, hmark, hstt, e1, hs1, hkey1, hnt1, hkeys1, hbal1⟩ :=
          hok run1 happ
        have hball1 : ∀ f ∈ e1 :: rest, balancedE f := by
          intro f hf
          rcases List.mem_cons.mp hf with hf | hf
          · subst hf
            exact hbal1 (Or.inl (hkey (by decide))) (hbal e (by simp))
          · exact hbal f (by simp [hf])
        obtain ⟨haccmix, haccok⟩ := stepAccept_spec c.utf8Size run1 e1 rest hs1
          hball1 (linkOK_congr e e1 rest hlink hnt1)
        rcases hacc : stepAccept c.utf8Size run1 with p | out
        · simp only [hacc]
          refine ⟨?_, by simp⟩
          intro hmix
          try rw [if_neg (show ¬ (true = false) by decide)] at hmix
          injection hmix with hp
          exact haccmix (hp ▸ hacc)
        · simp only [hacc]
          refine ⟨by simp, ?_⟩
          intro run2 result2 h2
          rcases out with ⟨run3, r3⟩
          try rw [if_neg (show ¬ (true = false) by decide)] at h2
          simp only [Except.ok.injEq, Sum.inr.injEq, Prod.mk.injEq] at h2
          obtain ⟨hr, hres⟩ := h2
          subst hr
          subst hres
          exact haccok run3 r3 hacc
    · simp only [hm, if_false]
      obtain ⟨haccmix, haccok⟩ := stepAccept_spec c.utf8Size run e rest hs hbal hlink
      rcases hacc : stepAccept c.utf8Size run with p | out
      · simp only [hacc]
        refine ⟨?_, by simp⟩
        intro hmix
        try rw [if_neg (show ¬ (true = false) by decide)] at hmix
        injection hmix with hp
        exact haccmix (hp ▸ hacc)
      · simp only [hacc]
        refine ⟨by simp, ?_⟩
        intro run2 result2 h2
        rcases out with ⟨run3, r3⟩
        try rw [if_neg (show ¬ (true = false) by decide)] at h2
        simp only [Except.ok.injEq, Sum.inr.injEq, Prod.mk.injEq] at h2
        obtain ⟨hr, hres⟩ := h2
        subst hr
        subst hres
        exact haccok run3 r3 hacc

theorem stepInvAt7 (text : List Char) (c : Char) (run : InlineRun)
    (result : Option GoVal) (e : StackEntry) (rest : List StackEntry)
    (hs : run.stack = e :: rest) (hinv : InvI run) (hstate : run.state = 7) :
    inlineStep text c run result ≠ .error .mixedItem ∧
    (∀ run1 result1,
      inlineStep text c run result = .ok (.inr (run1, result1)) → InvI run1) := by
  unfold InvI at hinv
  rw [hs] at hinv
  simp only [InvS] at hinv
  obtain ⟨hbal, hlink, hdict, hlist, hkey, hst1, hst11, hrange⟩ := hinv
  rw [hstate] at hdict hlist hkey hst1 hst11
  obtain ⟨k, hk⟩ : ∃ k, inlineTokenFor c = k := ⟨_, rfl⟩
  have hkle : k ≤ 8 := hk ▸ inlineTokenFor_le c
  interval_cases k
  all_goals try (simp only [inlineStep, hstate, hk]; norm_num [inlineStateMachine, smRow]; exact stepBreak_spec _ _)
  -- k = 0 : ordinary character → state 9 (nop)
  · simp only [inlineStep, hstate, hk]
    norm_num [inlineStateMachine, smRow, inlineAction]
    refine ⟨by simp, ?_⟩
    unfold InvI
    dsimp only
    rw [hs]
    simp only [InvS]
    refine ⟨hbal, hlink, ?_, fun _ => hlist (by decide), ?_, ?_, ?_,
      Or.inr (by decide)⟩
    · intro hd; exact absurd hd (by decide)
    · intro hkk; exact absurd hkk (by decide)
    · intro h1s; exact absurd h1s (by decide)
    · intro h11s; exact absurd h11s (by decide)
  -- k = 1 : whitespace → state 8 (nop)
  · simp only [inlineStep, hstate, hk]
    norm_num [inlineStateMachine, smRow, inlineAction]
    refine ⟨by simp, ?_⟩
    unfold InvI
    dsimp only
    rw [hs]
    simp only [InvS]
    refine ⟨hbal, hlink, ?_, fun _ => hlist (by decide), ?_, ?_, ?_,
      Or.inr (by decide)⟩
    · intro hd; exact absurd hd (by decide)
    · intro hkk; exact absurd hkk (by decide)
    · intro h1s; exact absurd h1s (by decide)
    · intro h11s; exact absurd h11s (by decide)
  -- k = 3 : comma → state 7 (action 7: append pending value)
  · have hc : c = ',' := inlineTokenFor_comma c hk
    simp only [inlineStep, hstate, hk]
    norm_num [inlineStateMachine, smRow, inlineAction, hc, isGhost]
    by_cases hm : run.marker > 0
    · simp only [hm, if_true]
      obtain ⟨hnomix, hok⟩ := appendStringValue_spec text false run e rest hs
      rcases happ : appendStringValue text false run with p | run1
      · simp only [happ]
        refine ⟨?_, by simp⟩
        intro hmix
        try rw [if_neg (show ¬ (true = false) by decide)] at hmix
        injection hmix with hp
        exact hnomix (hp ▸ happ)
      · simp only [happ]
        obtain ⟨hpos, hmark, hstt, e1, hs1, hkey1, hnt1, hkeys1, hbal1⟩ :=
          hok run1 happ
        refine ⟨by simp, ?_⟩
        intro run2 result2 h2
        try rw [if_neg (show ¬ (true = false) by decide)] at h2
        simp only [Except.ok.injEq, Sum.inr.injEq, Prod.mk.injEq] at h2
        rw [← h2.1]
        unfold InvI
        dsimp only
        rw [hs1]
        simp only [InvS]
        refine ⟨?_, ?_, ?_, ?_, ?_, ?_, ?_, Or.inr (by decide)⟩
        · intro f hf
          rcases List.mem_cons.mp hf with hf | hf
          · subst hf
            exact hbal1 (Or.inr (hlist (by decide))) (hbal e (by simp))
          · exact hbal f (by simp [hf])
        · exact linkOK_congr e e1 rest hlink hnt1
        · intro hd; exact absurd hd (by decide)
        · intro _; exact hkeys1.mpr (hlist (by decide))
        · intro hkk; exact absurd hkk (by decide)
        · intro h1s; exact absurd h1s (by decide)
        · intro h11s; exact absurd h11s (by decide)
    · simp only [hm, if_false]
      refine ⟨by simp, ?_⟩
      intro run1 result1 h1
      try rw [if_neg (show ¬ (true = false) by decide)] at h1
      simp only [Except.ok.injEq, Sum.inr.injEq, Prod.mk.injEq] at h1
      rw [← h1.1]
      unfold InvI
      dsimp only
      rw [hs]
      simp only [InvS]
      refine ⟨hbal, hlink, ?_, fun _ => hlist (by decide), ?_, ?_, ?_,
        Or.inr (by decide)⟩
      · intro hd; exact absurd hd (by decide)
      · intro hkk; exact absurd hkk (by decide)
      · intro h1s; exact absurd h1s (by decide)
      · intro h11s; exact absurd h11s (by decide)
  -- k = 4 : colon → state 9 (nop)
  · simp only [inlineStep, hstate, hk]
    norm_num [inlineStateMachine, smRow, inlineAction]
    refine ⟨by simp, ?_⟩
    unfold InvI
    dsimp only
    rw [hs]
    simp only [InvS]
    refine ⟨hbal, hlink, ?_, fun _ => hlist (by decide), ?_, ?_, ?_,
      Or.inr (by decide)⟩
    · intro hd; exact absurd hd (by decide)
    · intro hkk; exact absurd hkk (by decide)
    · intro h1s; exact absurd h1s (by decide)
    · intro h11s; exact absurd h11s (by decide)
  -- k = 5 : '[' → push a list frame, continue at state 7
  · have hcne : c ≠ ',' := inlineTokenFor_ne_comma c (by rw [hk]; decide)
    simp only [inlineStep, hstate, hk]
    norm_num [inlineStateMachine, smRow, inlineAction, pseudoS, isGhost, hcne]
    refine ⟨by simp, ?_⟩
    unfold InvI
    dsimp only
    rw [hs]
    simp only [InvS]
    refine ⟨?_, ?_, ?_, ?_, ?_, ?_, ?_, Or.inr (by decide)⟩
    · intro f hf
      rcases List.mem_cons.mp hf with hf | hf
      · subst hf
        intro ks hks
        cases hks
      · exact hbal f (by simp [hf])
    · exact ⟨⟨fun hn => absurd (hlist (by decide)) hn,
        fun _ => rfl⟩, hlink⟩
    · intro hd; exact absurd hd (by decide)
    · intro _; trivial
    · intro hkk; exact absurd hkk (by decide)
    · intro h1s; exact absurd h1s (by decide)
    · intro h11s; exact absurd h11s (by decide)
  -- k = 6 : closing bracket → accept state A2
  · simp only [inlineStep, hstate, hk]
    norm_num [inlineStateMachine, smRow, inlineAction, isGhost]
    by_cases hm : run.marker > 0
    · simp only [hm, if_true]
      obtain ⟨hnomix, hok⟩ := appendStringValue_spec text true run e rest hs
      rcases happ : appendStringValue text true run with p | run1
      · simp only [happ]
        refine ⟨?_, by simp⟩
        intro hmix
        try rw [if_neg (show ¬ (true = false) by decide)] at hmix
        injection hmix with hp
        exact hnomix (hp ▸ happ)
      · simp only [happ]
        obtain ⟨hpos, hmark, hstt, e1, hs1, hkey1, hnt1, hkeys1, hbal1⟩ :=
          hok run1 happ
        have hball1 : ∀ f ∈ e1 :: rest, balancedE f := by
          intro f hf
          rcases List.mem_cons.mp hf with hf | hf
          · subst hf
            exact hbal1 (Or.inr (hlist (by decide))) (hbal e (by simp))
          · exact hbal f (by simp [hf])
        obtain ⟨haccmix, haccok⟩ := stepAccept_spec c.utf8Size run1 e1 rest hs1
          hball1 (linkOK_congr e e1 rest hlink hnt1)
        rcases hacc : stepAccept c.utf8Size run1 with p | out
        · simp only [hacc]
          refine ⟨?_, by simp⟩
          intro hmix
          try rw [if_neg (show ¬ (true = false) by decide)] at hmix
          injection hmix with hp
          exact haccmix (hp ▸ hacc)
        · simp only [hacc]
          refine ⟨by simp, ?_⟩
          intro run2 result2 h2
          rcases out with ⟨run3, r3⟩
          try rw [if_neg (show ¬ (true = false) by decide)] at h2
          simp only [Except.ok.injEq, Sum.inr.injEq, Prod.mk.injEq] at h2
          obtain ⟨hr, hres⟩ := h2
          subst hr
          subst hres
          exact haccok run3 r3 hacc
    · simp only [hm, if_false]
      obtain ⟨haccmix, haccok⟩ := stepAccept_spec c.utf8Size run e rest hs hbal hlink
      rcases hacc : stepAccept c.utf8Size run with p | out
      · simp only [hacc]
        refine ⟨?_, by simp⟩
        intro hmix
        try rw [if_neg (show ¬ (true = false) by decide)] at hmix
        injection hmix with hp
        exact haccmix (hp ▸ hacc)
      · simp only [hacc]
        refine ⟨by simp, ?_⟩
        intro run2 result2 h2
        rcases out with ⟨run3, r3⟩
        try rw [if_neg (show ¬ (true = false) by decide)] at h2
        simp only [Except.ok.injEq, Sum.inr.injEq, Prod.mk.injEq] at h2
        obtain ⟨hr, hres⟩ := h2
        subst hr
        subst hres
        exact haccok run3 r3 hacc
  -- k = 7 : '{' → push a dict frame, continue at state 1
  · simp only [inlineStep, hstate, hk]
    norm_num [inlineStateMachine, smRow, inlineAction, pseudoS, isGhost]
    refine ⟨by simp, ?_⟩
    unfold InvI
    dsimp only
    rw [hs]
    simp only [InvS]
    refine ⟨?_, ?_, ?_, ?_, ?_, ?_, ?_, Or.inl (by decide)⟩
    · intro f hf
      rcases List.mem_cons.mp hf with hf | hf
      · subst hf
        intro ks hks
        cases hks
        rfl
      · exact hbal f (by simp [hf])
    · exact ⟨⟨fun hn => absurd (hlist (by decide)) hn,
        fun _ => rfl⟩, hlink⟩
    · intro _; simp
    · intro hl; exact absurd hl (by decide)
    · intro hkk; exact absurd hkk (by decide)
    · intro _; refine ⟨?_, ?_, ?_⟩ <;> trivial
    · intro h11s; exact absurd h11s (by decide)

theorem stepInvAt8 (text : List Char) (c : Char) (run : InlineRun)
    (result : Option GoVal) (e : StackEntry) (rest : List StackEntry)
    (hs : run.stack = e :: rest) (hinv : InvI run) (hstate : run.state = 8) :
    inlineStep text c run result ≠ .error .mixedItem ∧
    (∀ run1 result1,
      inlineStep text c run result = .ok (.inr (run1, result1)) → InvI run1) := by
  unfold InvI at hinv
  rw [hs] at hinv
  simp only [InvS] at hinv
  obtain ⟨hbal, hlink, hdict, hlist, hkey, hst1, hst11, hrange⟩ := hinv
  rw [hstate] at hdict hlist hkey hst1 hst11
  obtain ⟨k, hk⟩ : ∃ k, inlineTokenFor c = k := ⟨_, rfl⟩
  have hkle : k ≤ 8 := hk ▸ inlineTokenFor_le c
  interval_cases k
  all_goals try (simp only [inlineStep, hstate, hk]; norm_num [inlineStateMachine, smRow]; exact stepBreak_spec _ _)
  -- k = 0 : ordinary character → state 9 (nop)
  · simp only [inlineStep, hstate, hk]
    norm_num [inlineStateMachine, smRow, inlineAction]
    refine ⟨by simp, ?_⟩
    unfold InvI
    dsimp only
    rw [hs]
    simp only [InvS]
    refine ⟨hbal, hlink, ?_, fun _ => hlist (by decide), ?_, ?_, ?_,
      Or.inr (by decide)⟩
    · intro hd; exact absurd hd (by decide)
    · intro hkk; exact absurd hkk (by decide)
    · intro h1s; exact absurd h1s (by decide)
    · intro h11s; exact absurd h11s (by decide)
  -- k = 1 : whitespace → state 8 (nop)
  · simp only [inlineStep, hstate, hk]
    norm_num [inlineStateMachine, smRow, inlineAction]
    refine ⟨by simp, ?_⟩
    unfold InvI
    dsimp only
    rw [hs]
    simp only [InvS]
    refine ⟨hbal, hlink, ?_, fun _ => hlist (by decide), ?_, ?_, ?_,
      Or.inr (by decide)⟩
    · intro hd; exact absurd hd (by decide)
    · intro hkk; exact absurd hkk (by decide)
    · intro h1s; exact absurd h1s (by decide)
    · intro h11s; exact absurd h11s (by decide)
  -- k = 3 : comma → state 7 (action 7: append pending value)
  · have hc : c = ',' := inlineTokenFor_comma c hk
    simp only [inlineStep, hstate, hk]
    norm_num [inlineStateMachine, smRow, inlineAction, hc, isGhost]
    by_cases hm : run.marker > 0
    · simp only [hm, if_true]
      obtain ⟨hnomix, hok⟩ := appendStringValue_spec text false run e rest hs
      rcases happ : appendStringValue text false run with p | run1
      · simp only [happ]
        refine ⟨?_, by simp⟩
        intro hmix
        try rw [if_neg (show ¬ (true = false) by decide)] at hmix
        injection hmix with hp
        exact hnomix (hp ▸ happ)
      · simp only [happ]
        obtain ⟨hpos, hmark, hstt, e1, hs1, hkey1, hnt1, hkeys1, hbal1⟩ :=
          hok run1 happ
        refine ⟨by simp, ?_⟩
        intro run2 result2 h2
        try rw [if_neg (show ¬ (true = false) by decide)] at h2
        simp only [Except.ok.injEq, Sum.inr.injEq, Prod.mk.injEq] at h2
        rw [← h2.1]
        unfold InvI
        dsimp only
        rw [hs1]
        simp only [InvS]
        refine ⟨?_, ?_, ?_, ?_, ?_, ?_, ?_, Or.inr (by decide)⟩
        · intro f hf
          rcases List.mem_cons.mp hf with hf | hf
          · subst hf
            exact hbal1 (Or.inr (hlist (by decide))) (hbal e (by simp))
          · exact hbal f (by simp [hf])
        · exact linkOK_congr e e1 rest hlink hnt1
        · intro hd; exact absurd hd (by decide)
        · intro _; exact hkeys1.mpr (hlist (by decide))
        · intro hkk; exact absurd hkk (by decide)
        · intro h1s; exact absurd h1s (by decide)
        · intro h11s; exact absurd h11s (by decide)
    · simp only [hm, if_false]
      refine ⟨by simp, ?_⟩
      intro run1 result1 h1
      try rw [if_neg (show ¬ (true = false) by decide)] at h1
      simp only [Except.ok.injEq, Sum.inr.injEq, Prod.mk.injEq] at h1
      rw [← h1.1]
      unfold InvI
      dsimp only
      rw [hs]
      simp only [InvS]
      refine ⟨hbal, hlink, ?_, fun _ => hlist (by decide), ?_, ?_, ?_,
        Or.inr (by decide)⟩
      · intro hd; exact absurd hd (by decide)
      · intro hkk; exact absurd hkk (by decide)
      · intro h1s; exact absurd h1s (by decide)
      · intro h11s; exact absurd h11s (by decide)
  -- k = 4 : colon → state 9 (nop)
  · simp only [inlineStep, hstate, hk]
    norm_num [inlineStateMachine, smRow, inlineAction]
    refine ⟨by simp, ?_⟩
    unfold InvI
    dsimp only
    rw [hs]
    simp only [InvS]
    refine ⟨hbal, hlink, ?_, fun _ => hlist (by decide), ?_, ?_, ?_,
      Or.inr (by decide)⟩
    · intro hd; exact absurd hd (by decide)
    · intro hkk; exact absurd hkk (by decide)
    · intro h1s; exact absurd h1s (by decide)
    · intro h11s; exact absurd h11s (by decide)
  -- k = 5 : '[' → push a list frame, continue at state 7
  · have hcne : c ≠ ',' := inlineTokenFor_ne_comma c (by rw [hk]; decide)
    simp only [inlineStep, hstate, hk]
    norm_num [inlineStateMachine, smRow, inlineAction, pseudoS, isGhost, hcne]
    refine ⟨by simp, ?_⟩
    unfold InvI
    dsimp only
    rw [hs]
    simp only [InvS]
    refine ⟨?_, ?_, ?_, ?_, ?_, ?_, ?_, Or.inr (by decide)⟩
    · intro f hf
      rcases List.mem_cons.mp hf with hf | hf
      · subst hf
        intro ks hks
        cases hks
      · exact hbal f (by simp [hf])
    · exact ⟨⟨fun hn => absurd (hlist (by decide)) hn,
        fun _ => rfl⟩, hlink⟩
    · intro hd; exact absurd hd (by decide)
    · intro _; trivial
    · intro hkk; exact absurd hkk (by decide)
    · intro h1s; exact absurd h1s (by decide)
    · intro h11s; exact absurd h11s (by decide)
  -- k = 6 : closing bracket → accept state A2
  · simp only [inlineStep, hstate, hk]
    norm_num [inlineStateMachine, smRow, inlineAction, isGhost]
    by_cases hm : run.marker > 0
    · simp only [hm, if_true]
      obtain ⟨hnomix, hok⟩ := appendStringValue_spec text true run e rest hs
      rcases happ : appendStringValue text true run with p | run1
      · simp only [happ]
        refine ⟨?_, by simp⟩
        intro hmix
        try rw [if_neg (show ¬ (true = false) by decide)] at hmix
        injection hmix with hp
        exact hnomix (hp ▸ happ)
      · simp only [happ]
        obtain ⟨hpos, hmark, hstt, e1, hs1, hkey1, hnt1, hkeys1, hbal1⟩ :=
          hok run1 happ
        have hball1 : ∀ f ∈ e1 :: rest, balancedE f := by
          intro f hf
          rcases List.mem_cons.mp hf with hf | hf
          · subst hf
            exact hbal1 (Or.inr (hlist (by decide))) (hbal e (by simp))
          · exact hbal f (by simp [hf])
        obtain ⟨haccmix, haccok⟩ := stepAccept_spec c.utf8Size run1 e1 rest hs1
          hball1 (linkOK_congr e e1 rest hlink hnt1)
        rcases hacc : stepAccept c.utf8Size run1 with p | out
        · simp only [hacc]
          refine ⟨?_, by simp⟩
          intro hmix
          try rw [if_neg (show ¬ (true = false) by decide)] at hmix
          injection hmix with hp
          exact haccmix (hp ▸ hacc)
        · simp only [hacc]
          refine ⟨by simp, ?_⟩
          intro run2 result2 h2
          rcases out with ⟨run3, r3⟩
          try rw [if_neg (show ¬ (true = false) by decide)] at h2
          simp only [Except.ok.injEq, Sum.inr.injEq, Prod.mk.injEq] at h2
          obtain ⟨hr, hres⟩ := h2
          subst hr
          subst hres
          exact haccok run3 r3 hacc
    · simp only [hm, if_false]
      obtain ⟨haccmix, haccok⟩ := stepAccept_spec c.utf8Size run e rest hs hbal hlink
      rcases hacc : stepAccept c.utf8Size run with p | out
      · simp only [hacc]
        refine ⟨?_, by simp⟩
        intro hmix
        try rw [if_neg (show ¬ (true = false) by decide)] at hmix
        injection hmix with hp
        exact haccmix (hp ▸ hacc)
      · simp only [hacc]
        refine ⟨by simp, ?_⟩
        intro run2 result2 h2
        rcases out with ⟨run3, r3⟩
        try rw [if_neg (show ¬ (true = false) by decide)] at h2
        simp only [Except.ok.injEq, Sum.inr.injEq, Prod.mk.injEq] at h2
        obtain ⟨hr, hres⟩ := h2
        subst hr
        subst hres
        exact haccok run3 r3 hacc
  -- k = 7 : '{' → push a dict frame, continue at state 1
  · simp only [inlineStep, hstate, hk]
    norm_num [inlineStateMachine, smRow, inlineAction, pseudoS, isGhost]
    refine ⟨by simp, ?_⟩
    unfold InvI
    dsimp only
    rw [hs]
    simp only [InvS]
    refine ⟨?_, ?_, ?_, ?_, ?_, ?_, ?_, Or.inl (by decide)⟩
    · intro f hf
      rcases List.mem_cons.mp hf with hf | hf
      · subst hf
        intro ks hks
        cases hks
        rfl
      · exact hbal f (by simp [hf])
    · exact ⟨⟨fun hn => absurd (hlist (by decide)) hn,
        fun _ => rfl⟩, hlink⟩
    · intro _; simp
    · intro hl; exact absurd hl (by decide)
    · intro hkk; exact absurd hkk (by decide)
    · intro _; refine ⟨?_, ?_, ?_⟩ <;> trivial
    · intro h11s; exact absurd h11s (by decide)

theorem stepInvAt1 (text : List Char) (c : Char) (run : InlineRun)
    (result : Option GoVal) (e : StackEntry) (rest : List StackEntry)
    (hs : run.stack = e :: rest) (hinv : InvI run) (hstate : run.state = 1) :
    inlineStep text c run result ≠ .error .mixedItem ∧
    (∀ run1 result1,
      inlineStep text c run result = .ok (.inr (run1, result1)) → InvI run1) := by
  unfold InvI at hinv
  rw [hs] at hinv
  simp only [InvS] at hinv
  obtain ⟨hbal, hlink, hdict, hlist, hkey, hst1, hst11, hrange⟩ := hinv
  rw [hstate] at hdict hlist hkey hst1 hst11
  obtain ⟨k, hk⟩ : ∃ k, inlineTokenFor c = k := ⟨_, rfl⟩
  have hkle : k ≤ 8 := hk ▸ inlineTokenFor_le c
  interval_cases k
  all_goals try (simp only [inlineStep, hstate, hk]; norm_num [inlineStateMachine, smRow]; exact stepBreak_spec _ _)
  -- k = 0 : ordinary character → state 2 (nop)
  · simp only [inlineStep, hstate, hk]
    norm_num [inlineStateMachine, smRow, inlineAction]
    refine ⟨by simp, ?_⟩
    unfold InvI
    dsimp only
    rw [hs]
    simp only [InvS]
    refine ⟨hbal, hlink, fun _ => hdict (by decide), ?_, ?_, ?_, ?_,
      Or.inl (by decide)⟩
    · intro hl; exact absurd hl (by decide)
    · intro hkk; exact absurd hkk (by decide)
    · intro h1s; exact absurd h1s (by decide)
    · intro h11s; exact absurd h11s (by decide)
  -- k = 1 : whitespace → state 2 (nop)
  · simp only [inlineStep, hstate, hk]
    norm_num [inlineStateMachine, smRow, inlineAction]
    refine ⟨by simp, ?_⟩
    unfold InvI
    dsimp only
    rw [hs]
    simp only [InvS]
    refine ⟨hbal, hlink, fun _ => hdict (by decide), ?_, ?_, ?_, ?_,
      Or.inl (by decide)⟩
    · intro hl; exact absurd hl (by decide)
    · intro hkk; exact absurd hkk (by decide)
    · intro h1s; exact absurd h1s (by decide)
    · intro h11s; exact absurd h11s (by decide)
  -- k = 4 : colon → state 3 (action 3: close the key fragment)
  · simp only [inlineStep, hstate, hk]
    norm_num [inlineStateMachine, smRow, inlineAction]
    rcases hsl : sliceBytes text run.marker run.pos with _ | raw
    · simp [hsl]
    · simp only [hsl, hs, setTosKey]
      norm_num
      refine ⟨by simp, ?_⟩
      unfold InvI
      dsimp only
      simp only [InvS]
      refine ⟨?_, ?_, ?_, ?_, ?_, ?_, ?_, Or.inl (by decide)⟩
      · intro f hf
        rcases List.mem_cons.mp hf with hf | hf
        · subst hf
          intro ks hks
          exact hbal e (by simp) ks hks
        · exact hbal f (by simp [hf])
      · exact linkOK_congr e _ rest hlink rfl
      · intro _
        simpa using hdict (by decide)
      · intro hl; exact absurd hl (by decide)
      · intro _; simp
      · intro h1s; exact absurd h1s (by decide)
      · intro h11s; exact absurd h11s (by decide)
  -- k = 8 : closing brace → accept state A1 (append skips: empty first key)
  · simp only [inlineStep, hstate, hk]
    norm_num [inlineStateMachine, smRow, inlineAction, isGhost]
    obtain ⟨hmp, hv, hkn⟩ := hst1 rfl
    by_cases hm : run.marker > 0
    · simp only [hm, if_true]
      rcases appendStringValue_skip text run e rest hs hkn hmp hv with hsk | hsk
      · simp only [hsk]
        obtain ⟨haccmix, haccok⟩ := stepAccept_spec c.utf8Size run e rest hs hbal hlink
        rcases hacc : stepAccept c.utf8Size run with p | out
        · simp only [hacc]
          refine ⟨?_, by simp⟩
          intro hmix
          try rw [if_neg (show ¬ (true = false) by decide)] at hmix
          injection hmix with hp
          exact haccmix (hp ▸ hacc)
        · simp only [hacc]
          refine ⟨by simp, ?_⟩
          intro run2 result2 h2
          rcases out with ⟨run3, r3⟩
          try rw [if_neg (show ¬ (true = false) by decide)] at h2
          simp only [Except.ok.injEq, Sum.inr.injEq, Prod.mk.injEq] at h2
          obtain ⟨hr, hres⟩ := h2
          subst hr
          subst hres
          exact haccok run3 r3 hacc
      · simp only [hsk]
        refine ⟨?_, by simp⟩
        intro hmix
        try rw [if_neg (show ¬ (true = false) by decide)] at hmix
        injection hmix with hp
        cases hp
    · simp only [hm, if_false]
      obtain ⟨haccmix, haccok⟩ := stepAccept_spec c.utf8Size run e rest hs hbal hlink
      rcases hacc : stepAccept c.utf8Size run with p | out
      · simp only [hacc]
        refine ⟨?_, by simp⟩
        intro hmix
        try rw [if_neg (show ¬ (true = false) by decide)] at hmix
        injection hmix with hp
        exact haccmix (hp ▸ hacc)
      · simp only [hacc]
        refine ⟨by simp, ?_⟩
        intro run2 result2 h2
        rcases out with ⟨run3, r3⟩
        try rw [if_neg (show ¬ (true = false) by decide)] at h2
        simp only [Except.ok.injEq, Sum.inr.injEq, Prod.mk.injEq] at h2
        obtain ⟨hr, hres⟩ := h2
        subst hr
        subst hres
        exact haccok run3 r3 hacc

theorem stepInvAt6 (text : List Char) (c : Char) (run : InlineRun)
    (result : Option GoVal) (e : StackEntry) (rest : List StackEntry)
    (hs : run.stack = e :: rest) (hinv : InvI run) (hstate : run.state = 6) :
    inlineStep text c run result ≠ .error .mixedItem ∧
    (∀ run1 result1,
      inlineStep text c run result = .ok (.inr (run1, result1)) → InvI run1) := by
  unfold InvI at hinv
  rw [hs] at hinv
  simp only [InvS] at hinv
  obtain ⟨hbal, hlink, hdict, hlist, hkey, hst1, hst11, hrange⟩ := hinv
  rw [hstate] at hdict hlist hkey hst1 hst11
  obtain ⟨k, hk⟩ : ∃ k, inlineTokenFor c = k := ⟨_, rfl⟩
  have hkle : k ≤ 8 := hk ▸ inlineTokenFor_le c
  interval_cases k
  all_goals try (simp only [inlineStep, hstate, hk]; norm_num [inlineStateMachine, smRow]; exact stepBreak_spec _ _)
  -- k = 0 : ordinary character → state 2 (nop)
  · simp only [inlineStep, hstate, hk]
    norm_num [inlineStateMachine, smRow, inlineAction]
    refine ⟨by simp, ?_⟩
    unfold InvI
    dsimp only
    rw [hs]
    simp only [InvS]
    refine ⟨hbal, hlink, fun _ => hdict (by decide), ?_, ?_, ?_, ?_,
      Or.inl (by decide)⟩
    · intro hl; exact absurd hl (by decide)
    · intro hkk; exact absurd hkk (by decide)
    · intro h1s; exact absurd h1s (by decide)
    · intro h11s; exact absurd h11s (by decide)
  -- k = 1 : whitespace → state 6 (action 6 with oldS = 6: nop)
  · simp only [inlineStep, hstate, hk]
    norm_num [inlineStateMachine, smRow, inlineAction]
    refine ⟨by simp, ?_⟩
    unfold InvI
    dsimp only
    rw [hs]
    simp only [InvS]
    refine ⟨hbal, hlink, fun _ => hdict (by decide), ?_, ?_, ?_, ?_,
      Or.inl (by decide)⟩
    · intro hl; exact absurd hl (by decide)
    · intro hkk; exact absurd hkk (by decide)
    · intro h1s; exact absurd h1s (by decide)
    · intro h11s; exact absurd h11s (by decide)
  -- k = 4 : colon → state 3 (action 3: close the key fragment)
  · simp only [inlineStep, hstate, hk]
    norm_num [inlineStateMachine, smRow, inlineAction]
    rcases hsl : sliceBytes text run.marker run.pos with _ | raw
    · simp [hsl]
    · simp only [hsl, hs, setTosKey]
      norm_num
      refine ⟨by simp, ?_⟩
      unfold InvI
      dsimp only
      simp only [InvS]
      refine ⟨?_, ?_, ?_, ?_, ?_, ?_, ?_, Or.inl (by decide)⟩
      · intro f hf
        rcases List.mem_cons.mp hf with hf | hf
        · subst hf
          intro ks hks
          exact hbal e (by simp) ks hks
        · exact hbal f (by simp [hf])
      · exact linkOK_congr e _ rest hlink rfl
      · intro _
        simpa using hdict (by decide)
      · intro hl; exact absurd hl (by decide)
      · intro _; simp
      · intro h1s; exact absurd h1s (by decide)
      · intro h11s; exact absurd h11s (by decide)

theorem stepInvAt5 (text : List Char) (c : Char) (run : InlineRun)
    (result : Option GoVal) (e : StackEntry) (rest : List StackEntry)
    (hs : run.stack = e :: rest) (hinv : InvI run) (hstate : run.state = 5) :
    inlineStep text c run result ≠ .error .mixedItem ∧
    (∀ run1 result1,
      inlineStep text c run result = .ok (.inr (run1, result1)) → InvI run1) := by
  unfold InvI at hinv
  rw [hs] at hinv
  simp only [InvS] at hinv
  obtain ⟨hbal, hlink, hdict, hlist, hkey, hst1, hst11, hrange⟩ := hinv
  rw [hstate] at hdict hlist hkey hst1 hst11
  obtain ⟨k, hk⟩ : ∃ k, inlineTokenFor c = k := ⟨_, rfl⟩
  have hkle : k ≤ 8 := hk ▸ inlineTokenFor_le c
  interval_cases k
  all_goals try (simp only [inlineStep, hstate, hk]; norm_num [inlineStateMachine, smRow]; exact stepBreak_spec _ _)
  -- k = 1 : whitespace → state 5 (nop)
  · simp only [inlineStep, hstate, hk]
    norm_num [inlineStateMachine, smRow, inlineAction]
    refine ⟨by simp, ?_⟩
    unfold InvI
    dsimp only
    rw [hs]
    simp only [InvS]
    refine ⟨hbal, hlink, fun _ => hdict (by decide), ?_,
      fun _ => hkey (by decide), ?_, ?_, Or.inl (by decide)⟩
    · intro hl; exact absurd hl (by decide)
    · intro h1s; exact absurd h1s (by decide)
    · intro h11s; exact absurd h11s (by decide)
  -- k = 3 : comma → state 6 (action 6; ghost state: no append)
  · simp only [inlineStep, hstate, hk]
    norm_num [inlineStateMachine, smRow, inlineAction, isGhost]
    simp only [hs, setTosKey]
    refine ⟨by simp, ?_⟩
    intro run2 result2 h2
    try rw [if_neg (show ¬ (true = false) by decide)] at h2
    simp only [Except.ok.injEq, Sum.inr.injEq, Prod.mk.injEq] at h2
    rw [← h2.1]
    unfold InvI
    dsimp only
    simp only [InvS]
    refine ⟨?_, linkOK_congr e _ rest hlink rfl, ?_, ?_, ?_, ?_, ?_,
      Or.inl (by decide)⟩
    · intro f hf
      rcases List.mem_cons.mp hf with hf | hf
      · subst hf
        intro ks hks
        exact hbal e (by simp) ks hks
      · exact hbal f (by simp [hf])
    · intro _ hn
      exact hdict (by decide) hn
    · intro hl; exact absurd hl (by decide)
    · intro hkk; exact absurd hkk (by decide)
    · intro h1s; exact absurd h1s (by decide)
    · intro h11s; exact absurd h11s (by decide)
  -- k = 8 : closing brace → accept state A1 (ghost state: no append)
  · simp only [inlineStep, hstate, hk]
    norm_num [inlineStateMachine, smRow, inlineAction, isGhost]
    obtain ⟨haccmix, haccok⟩ := stepAccept_spec c.utf8Size run e rest hs hbal hlink
    rcases hacc : stepAccept c.utf8Size run with p | out
    · simp only [hacc]
      refine ⟨?_, by simp⟩
      intro hmix
      try rw [if_neg (show ¬ (true = false) by decide)] at hmix
      injection hmix with hp
      exact haccmix (hp ▸ hacc)
    · simp only [hacc]
      refine ⟨by simp, ?_⟩
      intro run2 result2 h2
      rcases out with ⟨run3, r3⟩
      try rw [if_neg (show ¬ (true = false) by decide)] at h2
      simp only [Except.ok.injEq, Sum.inr.injEq, Prod.mk.injEq] at h2
      obtain ⟨hr, hres⟩ := h2
      subst hr
      subst hres
      exact haccok run3 r3 hacc

theorem stepInvAt10 (text : List Char) (c : Char) (run : InlineRun)
    (result : Option GoVal) (e : StackEntry) (rest : List StackEntry)
    (hs : run.stack = e :: rest) (hinv : InvI run) (hstate : run.state = 10) :
    inlineStep text c run result ≠ .error .mixedItem ∧
    (∀ run1 result1,
      inlineStep text c run result = .ok (.inr (run1, result1)) → InvI run1) := by
  unfold InvI at hinv
  rw [hs] at hinv
  simp only [InvS] at hinv
  obtain ⟨hbal, hlink, hdict, hlist, hkey, hst1, hst11, hrange⟩ := hinv
  rw [hstate] at hdict hlist hkey hst1 hst11
  obtain ⟨k, hk⟩ : ∃ k, inlineTokenFor c = k := ⟨_, rfl⟩
  have hkle : k ≤ 8 := hk ▸ inlineTokenFor_le c
  interval_cases k
  all_goals try (simp only [inlineStep, hstate, hk]; norm_num [inlineStateMachine, smRow]; exact stepBreak_spec _ _)
  -- k = 1 : whitespace → state 10 (nop)
  · simp only [inlineStep, hstate, hk]
    norm_num [inlineStateMachine, smRow, inlineAction]
    refine ⟨by simp, ?_⟩
    unfold InvI
    dsimp only
    rw [hs]
    simp only [InvS]
    refine ⟨hbal, hlink, ?_, fun _ => hlist (by decide), ?_, ?_, ?_,
      Or.inr (by decide)⟩
    · intro hd; exact absurd hd (by decide)
    · intro hkk; exact absurd hkk (by decide)
    · intro h1s; exact absurd h1s (by decide)
    · intro h11s; exact absurd h11s (by decide)
  -- k = 3 : comma → state 7 (action 7; ghost state: no append)
  · have hc : c = ',' := inlineTokenFor_comma c hk
    simp only [inlineStep, hstate, hk]
    norm_num [inlineStateMachine, smRow, inlineAction, hc, isGhost]
    refine ⟨by simp, ?_⟩
    unfold InvI
    dsimp only
    rw [hs]
    simp only [InvS]
    refine ⟨hbal, hlink, ?_, fun _ => hlist (by decide), ?_, ?_, ?_,
      Or.inr (by decide)⟩
    · intro hd; exact absurd hd (by decide)
    · intro hkk; exact absurd hkk (by decide)
    · intro h1s; exact absurd h1s (by decide)
    · intro h11s; exact absurd h11s (by decide)
  -- k = 6 : closing bracket → accept state A2 (ghost state: no append)
  · simp only [inlineStep, hstate, hk]
    norm_num [inlineStateMachine, smRow, inlineAction, isGhost]
    obtain ⟨haccmix, haccok⟩ := stepAccept_spec c.utf8Size run e rest hs hbal hlink
    rcases hacc : stepAccept c.utf8Size run with p | out
    · simp only [hacc]
      refine ⟨?_, by simp⟩
      intro hmix
      try rw [if_neg (show ¬ (true = false) by decide)] at hmix
      injection hmix with hp
      exact haccmix (hp ▸ hacc)
    · simp only [hacc]
      refine ⟨by simp, ?_⟩
      intro run2 result2 h2
      rcases out with ⟨run3, r3⟩
      try rw [if_neg (show ¬ (true = false) by decide)] at h2
      simp only [Except.ok.injEq, Sum.inr.injEq, Prod.mk.injEq] at h2
      obtain ⟨hr, hres⟩ := h2
      subst hr
      subst hres
      exact haccok run3 r3 hacc

theorem inlineStep_inv (text : List Char) (c : Char) (run : InlineRun)
    (result : Option GoVal) (e : StackEntry) (rest : List StackEntry)
    (hs : run.stack = e :: rest) (hinv : InvI run) :
    inlineStep text c run result ≠ .error .mixedItem ∧
    (∀ run1 result1,
      inlineStep text c run result = .ok (.inr (run1, result1)) → InvI run1) := by
  have hrange : dictState run.state ∨ listState run.state := by
    have h := hinv
    unfold InvI at h
    rw [hs] at h
    simp only [InvS] at h
    exact h.2.2.2.2.2.2.2
  have hcases : run.state = 1 ∨ run.state = 2 ∨ run.state = 3 ∨ run.state = 4 ∨
      run.state = 5 ∨ run.state = 6 ∨ run.state = 7 ∨ run.state = 8 ∨
      run.state = 9 ∨ run.state = 10 ∨ run.state = 11 ∨ run.state = 12 := by
    rcases hrange with h | h
    · rcases h with h|h|h|h|h|h|h <;> tauto
    · rcases h with h|h|h|h|h <;> tauto
  rcases hcases with h|h|h|h|h|h|h|h|h|h|h|h
  · exact stepInvAt1 text c run result e rest hs hinv h
  · exact stepInvAt2 text c run result e rest hs hinv h
  · exact stepInvAt3 text c run result e rest hs hinv h
  · exact stepInvAt4 text c run result e rest hs hinv h
  · exact stepInvAt5 text c run result e rest hs hinv h
  · exact stepInvAt6 text c run result e rest hs hinv h
  · exact stepInvAt7 text c run result e rest hs hinv h
  · exact stepInvAt8 text c run result e rest hs hinv h
  · exact stepInvAt9 text c run result e rest hs hinv h
  · exact stepInvAt10 text c run result e rest hs hinv h
  · exact stepInvAt11 text c run result e rest hs hinv h
  · exact stepInvAt12 text c run result e rest hs hinv h

theorem inlineLoop_noMixed (text : List Char) :
    ∀ (input : List Char) (run : InlineRun) (result : Option GoVal),
      InvI run → inlineLoop text input run result ≠ .error .mixedItem := by
  intro input
  induction input with
  | nil =>
    intro run result _
    rw [inlineLoop]
    rcases hstk : run.stack with _ | ⟨e, st⟩
    · exact inlineResolve_no_mixed run result
    · simp
  | cons c rest ih =>
    intro run result hinv
    rw [inlineLoop]
    rcases hstk : run.stack with _ | ⟨e, st⟩
    · exact inlineResolve_no_mixed run result
    · obtain ⟨hmix, hcont⟩ := inlineStep_inv text c run result e st hstk hinv
      rcases hstep : inlineStep text c run result with p | out
      · intro h
        injection h with hp
        exact hmix (hp ▸ hstep)
      · rcases out with out | ⟨run1, result1⟩
        · simp
        · exact ih run1 result1 (hcont run1 result1 hstep)

theorem inlineParse_noMixed (initial : Int) (input : String)
    (hinit : initial = 11 ∨ initial = 12) :
    inlineParse initial input ≠ .error .mixedItem := by
  unfold inlineParse
  apply inlineLoop_noMixed
  rcases hinit with h | h <;> subst h
  · refine ⟨?_, trivial, ?_, ?_, ?_, ?_, ?_, Or.inl (by decide)⟩
    · intro f hf
      simp only [List.mem_singleton] at hf
      subst hf
      intro ks hks
      simp at hks
      subst hks
      rfl
    · intro _; simp
    · intro hl; exact absurd hl (by decide)
    · intro hkk; exact absurd hkk (by decide)
    · intro h1s; exact absurd h1s (by decide)
    · intro _; exact ⟨rfl, rfl⟩
  · refine ⟨?_, trivial, ?_, ?_, ?_, ?_, ?_, Or.inr (by decide)⟩
    · intro f hf
      simp only [List.mem_singleton] at hf
      subst hf
      intro ks hks
      simp only at hks
      cases hks
    · intro hd; exact absurd hd (by decide)
    · intro _; simp
    · intro hkk; exact absurd hkk (by decide)
    · intro h1s; exact absurd h1s (by decide)
    · intro h11s; exact absurd h11s (by decide)

theorem nextTokenP_stack (st : PState) : (nextTokenP st).stack = st.stack := by
  unfold nextTokenP
  rcases st.tokens with _ | ⟨t, rest⟩ <;> rfl

theorem balStack_pushNonterm (stack : List StackEntry) (hb : balStack stack)
    (isDict : Bool) : balStack (pushNonterm isDict stack) := by
  intro f hf
  rcases List.mem_cons.mp hf with hf | hf
  · subst hf
    intro ks hks
    rcases isDict with _ | _
    · cases hks
    · simp only at hks
      simp at hks
      subst hks
      rfl
  · exact hb f hf

theorem pushNonterm_keys (stack : List StackEntry) :
    (pushNonterm false stack) = { values := [], keys := none } :: stack := rfl

theorem balStack_pushKV (e : StackEntry) (rest : List StackEntry)
    (strOpt : Option String) (v : GoVal) (hb : balStack (e :: rest))
    (hcond : e.keys = none ∨ strOpt ≠ none) :
    pushKV (e :: rest) strOpt v ≠ .error .mixedItem ∧
    ∀ stack2 b, pushKV (e :: rest) strOpt v = .ok (stack2, b) →
      balStack stack2 ∧ ∃ e1, stack2 = e1 :: rest ∧ (e1.keys = none ↔ e.keys = none) := by
  obtain ⟨e1, b0, hpush, hkeyeq, hnt, herr, hkeysiff, hvals, hbalp⟩ :=
    pushKV_spec e rest strOpt v
  rw [hpush]
  refine ⟨by simp, ?_⟩
  intro stack2 b h
  simp only [Except.ok.injEq, Prod.mk.injEq] at h
  rw [← h.1]
  have hbal1 : balancedE e1 := hbalp hcond (hb e (by simp))
  refine ⟨?_, e1, rfl, hkeysiff⟩
  intro f hf
  rcases List.mem_cons.mp hf with hf | hf
  · subst hf; exact hbal1
  · exact hb f (by simp [hf])

theorem multiStringAccum_ok (n : Nat) :
    ∀ (ind : Nat) (acc : String) (st : PState),
      MResOK st (multiStringAccum n ind acc st) := by
  induction n with
  | zero =>
    intro ind acc st
    refine ⟨by simp [multiStringAccum], ?_⟩
    intro res err st1 h
    simp [multiStringAccum] at h
  | succ n ih =>
    intro ind acc st
    rw [multiStringAccum]
    try dsimp only
    constructor
    · split
      · simp
      · split
        · simp
        · exact (ih ind _ (nextTokenP st)).1
    · intro res err st1 h
      split at h
      · simp only [Except.ok.injEq, Prod.mk.injEq] at h
        rw [← h.2.2]
        exact nextTokenP_stack st
      · split at h
        · simp only [Except.ok.injEq, Prod.mk.injEq] at h
          rw [← h.2.2]
          exact nextTokenP_stack st
        · exact ((ih ind _ (nextTokenP st)).2 res err st1 h).trans
            (nextTokenP_stack st)

theorem multilineKeyAccum_ok (n : Nat) :
    ∀ (ind : Nat) (acc : String) (st : PState),
      AccOK st (multilineKeyAccum n ind acc st) := by
  induction n with
  | zero =>
    intro ind acc st
    refine ⟨by simp [multilineKeyAccum], ?_⟩
    intro a b st1 h
    simp [multilineKeyAccum] at h
  | succ n ih =>
    intro ind acc st
    rw [multilineKeyAccum]
    try dsimp only
    constructor
    · split
      · simp
      · split
        · simp
        · exact (ih ind _ (nextTokenP st)).1
    · intro a b st1 h
      split at h
      · simp only [Except.ok.injEq, Prod.mk.injEq] at h
        rw [← h.2.2]
        exact nextTokenP_stack st
      · split at h
        · simp only [Except.ok.injEq, Prod.mk.injEq] at h
          rw [← h.2.2]
          exact nextTokenP_stack st
        · exact ((ih ind _ (nextTokenP st)).2 a b st1 h).trans
            (nextTokenP_stack st)

theorem parseMultiString_ok (n : Nat) (ind : Nat) (st : PState)
    (hb : balStack st.stack) : PResOK st (parseMultiString n ind st) := by
  match n with
  | 0 =>
    refine ⟨by simp [parseMultiString], ?_⟩
    intro res err st1 h
    simp [parseMultiString] at h
  | n + 1 =>
    rw [parseMultiString]
    try dsimp only
    constructor
    · split
      · simp
      · exact (multiStringAccum_ok n ind _ st).1
    · intro res err st1 h
      split at h
      · simp only [Except.ok.injEq, Prod.mk.injEq] at h
        rw [← h.2.2]
        exact ⟨hb, fun _ => rfl⟩
      · have := (multiStringAccum_ok n ind _ st).2 res err st1 h
        rw [this]
        exact ⟨hb, fun _ => rfl⟩

theorem parseListItem_ok (n : Nat) (ind : Nat) (st : PState)
    (hb : balStack st.stack) : PResOK st (parseListItem n ind st) := by
  match n with
  | 0 =>
    refine ⟨by simp [parseListItem], ?_⟩
    intro res err st1 h
    simp [parseListItem] at h
  | n + 1 =>
    rw [parseListItem]
    dsimp only
    constructor
    · split
      · simp
      · split
        · simp
        · split
          · simp
          · split <;> simp
    · intro res err st1 h
      split at h
      · simp only [Except.ok.injEq, Prod.mk.injEq] at h
        rw [← h.2.2]
        exact ⟨hb, fun _ => rfl⟩
      · split at h
        · simp only [Except.ok.injEq, Prod.mk.injEq] at h
          rw [← h.2.2]
          exact ⟨hb, fun _ => rfl⟩
        · split at h
          · cases h
          · split at h
            · simp only [Except.ok.injEq, Prod.mk.injEq] at h
              rw [← h.2.2, nextTokenP_stack]
              exact ⟨hb, fun _ => rfl⟩
            · simp only [Except.ok.injEq, Prod.mk.injEq] at h
              rw [← h.2.2, nextTokenP_stack]
              exact ⟨hb, fun _ => rfl⟩

theorem parseDictKeyValuePair_ok (n : Nat) (ind : Nat) (st : PState)
    (hb : balStack st.stack) : KVResOK st (parseDictKeyValuePair n ind st) := by
  match n with
  | 0 =>
    refine ⟨by simp [parseDictKeyValuePair], ?_⟩
    intro kv err st1 h
    simp [parseDictKeyValuePair] at h
  | n + 1 =>
    rw [parseDictKeyValuePair]
    dsimp only
    constructor
    · split
      · simp
      · split
        · split <;> simp
        · simp
    · intro kv err st1 h
      split at h
      · simp only [Except.ok.injEq, Prod.mk.injEq] at h
        obtain ⟨hkv, -, hst⟩ := h
        rw [← hst]
        refine ⟨hb, fun _ => rfl, ?_⟩
        rw [← hkv]
        intro hv
        exact absurd rfl hv
      · split at h
        · split at h
          · simp only [Except.ok.injEq, Prod.mk.injEq] at h
            obtain ⟨hkv, -, hst⟩ := h
            rw [← hst, nextTokenP_stack]
            refine ⟨hb, fun _ => rfl, ?_⟩
            rw [← hkv]
            intro hv
            exact absurd rfl hv
          · simp only [Except.ok.injEq, Prod.mk.injEq] at h
            obtain ⟨hkv, -, hst⟩ := h
            rw [← hst, nextTokenP_stack]
            refine ⟨hb, fun _ => rfl, ?_⟩
            rw [← hkv]
            intro _
            simp
        · cases h

theorem parseListItemMultiline_step (n : Nat)
    (hAny : ∀ ind st, balStack st.stack → PResOK st (parseAny n ind st))
    (ind : Nat) (st : PState) (hb : balStack st.stack) :
    PResOK st (parseListItemMultiline (n + 1) ind st) := by
  rw [parseListItemMultiline]
  try dsimp only
  have hb1 : balStack (nextTokenP st).stack := by
    rw [nextTokenP_stack]; exact hb
  obtain ⟨hAmix, hAok⟩ := hAny (nextTokenP st).token.indent (nextTokenP st) hb1
  constructor
  · split
    · simp
    · split
      · simp
      · split
        · simp
        · rcases hA : parseAny n (nextTokenP st).token.indent (nextTokenP st)
            with p | ⟨res1, err1, st2⟩
          · simp only [hA]
            intro hc
            injection hc with hp
            exact hAmix (hp ▸ hA)
          · simp only [hA]
            split <;> simp
  · intro res err st1 h
    split at h
    · simp only [Except.ok.injEq, Prod.mk.injEq] at h
      rw [← h.2.2]
      exact ⟨hb, fun _ => rfl⟩
    · split at h
      · simp only [Except.ok.injEq, Prod.mk.injEq] at h
        rw [← h.2.2, nextTokenP_stack]
        exact ⟨hb, fun _ => rfl⟩
      · split at h
        · simp only [Except.ok.injEq, Prod.mk.injEq] at h
          rw [← h.2.2, nextTokenP_stack]
          exact ⟨hb, fun _ => rfl⟩
        · rcases hA : parseAny n (nextTokenP st).token.indent (nextTokenP st)
            with p | ⟨res1, err1, st2⟩
          · simp only [hA] at h
            cases h
          · simp only [hA] at h
            obtain ⟨hb2, hrest⟩ := hAok res1 err1 st2 hA
            split at h
            · simp only [Except.ok.injEq, Prod.mk.injEq] at h
              obtain ⟨-, herr, hst⟩ := h
              rw [← hst]
              refine ⟨hb2, ?_⟩
              intro hn
              rw [hn] at herr
              cases herr
            · simp only [Except.ok.injEq, Prod.mk.injEq] at h
              obtain ⟨-, herr, hst⟩ := h
              rw [← hst]
              refine ⟨hb2, ?_⟩
              intro hn
              rw [(hrest (herr.symm ▸ hn)), nextTokenP_stack]

theorem parseDictKeyAnyValuePair_step (n : Nat)
    (hAny : ∀ ind st, balStack st.stack → PResOK st (parseAny n ind st))
    (ind : Nat) (st : PState) (hb : balStack st.stack) :
    KVResOK st (parseDictKeyAnyValuePair (n + 1) ind st) := by
  rw [parseDictKeyAnyValuePair]
  try dsimp only
  have hb1 : balStack (nextTokenP st).stack := by
    rw [nextTokenP_stack]; exact hb
  obtain ⟨hAmix, hAok⟩ := hAny (nextTokenP st).token.indent (nextTokenP st) hb1
  constructor
  · split
    · simp
    · split
      · simp
      · split
        · simp
        · split
          · simp
          · rcases hA : parseAny n (nextTokenP st).token.indent (nextTokenP st)
              with p | ⟨res1, err1, st2⟩
            · simp only [hA]
              intro hc
              injection hc with hp
              exact hAmix (hp ▸ hA)
            · simp only [hA]
              simp
  · intro kv err st1 h
    split at h
    · simp only [Except.ok.injEq, Prod.mk.injEq] at h
      obtain ⟨hkv, -, hst⟩ := h
      rw [← hst]
      refine ⟨hb, fun _ => rfl, ?_⟩
      rw [← hkv]
      intro hv
      exact absurd rfl hv
    · split at h
      · cases h
      · split at h
        · simp only [Except.ok.injEq, Prod.mk.injEq] at h
          obtain ⟨hkv, -, hst⟩ := h
          rw [← hst, nextTokenP_stack]
          refine ⟨hb, fun _ => rfl, ?_⟩
          rw [← hkv]
          intro hv
          exact absurd rfl hv
        · split at h
          · simp only [Except.ok.injEq, Prod.mk.injEq] at h
            obtain ⟨hkv, -, hst⟩ := h
            rw [← hst, nextTokenP_stack]
            refine ⟨hb, fun _ => rfl, ?_⟩
            rw [← hkv]
            intro _
            simp
          · rcases hA : parseAny n (nextTokenP st).token.indent (nextTokenP st)
              with p | ⟨res1, err1, st2⟩
            · simp only [hA] at h
              cases h
            · simp only [hA] at h
              obtain ⟨hb2, hrest⟩ := hAok res1 err1 st2 hA
              simp only [Except.ok.injEq, Prod.mk.injEq] at h
              obtain ⟨hkv, herr, hst⟩ := h
              rw [← hst]
              refine ⟨hb2, ?_, ?_⟩
              · intro hn
                rw [(hrest (herr.symm ▸ hn)), nextTokenP_stack]
              · rw [← hkv]
                intro _
                simp

theorem parseDictKeyValuePairWithMultilineKey_step (n : Nat)
    (hAny : ∀ ind st, balStack st.stack → PResOK st (parseAny n ind st))
    (ind : Nat) (st : PState) (hb : balStack st.stack) :
    KVResOK st (parseDictKeyValuePairWithMultilineKey (n + 1) ind st) := by
  rw [parseDictKeyValuePairWithMultilineKey]
  try dsimp only
  obtain ⟨hMmix, hMok⟩ := multilineKeyAccum_ok n ind (allowVoid st.token.content 0) st
  constructor
  · split
    · simp
    · rcases hM : multilineKeyAccum n ind (allowVoid st.token.content 0) st
        with p | ⟨_ | e, key, stM⟩
      · simp only [hM]
        intro hc
        injection hc with hp
        exact hMmix (hp ▸ hM)
      · simp only [hM]
        have hb1 : balStack stM.stack := by
          rw [hMok _ _ stM hM]; exact hb
        obtain ⟨hAmix, hAok⟩ := hAny stM.token.indent stM hb1
        split
        · simp
        · rcases hA : parseAny n stM.token.indent stM with p | ⟨res1, err1, st2⟩
          · simp only [hA]
            intro hc
            injection hc with hp
            exact hAmix (hp ▸ hA)
          · simp only [hA]
            simp
      · simp only [hM]
        simp
  · intro kv err st1 h
    split at h
    · simp only [Except.ok.injEq, Prod.mk.injEq] at h
      obtain ⟨hkv, -, hst⟩ := h
      rw [← hst]
      refine ⟨hb, fun _ => rfl, ?_⟩
      rw [← hkv]
      intro hv
      exact absurd rfl hv
    · rcases hM : multilineKeyAccum n ind (allowVoid st.token.content 0) st
        with p | ⟨_ | e, key, stM⟩
      · simp only [hM] at h
        cases h
      · have hstM : stM.stack = st.stack := hMok _ _ stM hM
        have hb1 : balStack stM.stack := by rw [hstM]; exact hb
        obtain ⟨hAmix, hAok⟩ := hAny stM.token.indent stM hb1
        simp only [hM] at h
        split at h
        · simp only [Except.ok.injEq, Prod.mk.injEq] at h
          obtain ⟨hkv, -, hst⟩ := h
          rw [← hst, hstM]
          refine ⟨hb, fun _ => rfl, ?_⟩
          rw [← hkv]
          intro _
          simp
        · rcases hA : parseAny n stM.token.indent stM with p | ⟨res1, err1, st2⟩
          · simp only [hA] at h
            cases h
          · simp only [hA] at h
            obtain ⟨hb2, hrest⟩ := hAok res1 err1 st2 hA
            simp only [Except.ok.injEq, Prod.mk.injEq] at h
            obtain ⟨hkv, herr, hst⟩ := h
            rw [← hst]
            refine ⟨hb2, ?_, ?_⟩
            · intro hn
              rw [(hrest (herr.symm ▸ hn)), hstM]
            · rw [← hkv]
              intro _
              simp
      · have hstM : stM.stack = st.stack := hMok _ _ stM hM
        simp only [hM] at h
        simp only [Except.ok.injEq, Prod.mk.injEq] at h
        obtain ⟨hkv, herr, hst⟩ := h
        rw [← hst, hstM]
        refine ⟨hb, ?_, ?_⟩
        · intro hn
          simp_all
        · rw [← hkv]
          intro hv
          exact absurd rfl hv

theorem parseList_step (n : Nat)
    (hLItems : ∀ ind st tos rest, balStack st.stack → st.stack = tos :: rest →
      tos.keys = none → LoopOK rest (parseListItems n ind st))
    (ind : Nat) (st : PState) (hb : balStack st.stack) :
    PResOK st (parseList (n + 1) ind st) := by
  rw [parseList]
  try dsimp only
  obtain ⟨hLmix, hLok⟩ := hLItems st.token.indent
      { st with stack := pushNonterm false st.stack }
      { values := [], keys := none } st.stack
      (balStack_pushNonterm st.stack hb false) rfl rfl
  rcases hL : parseListItems n st.token.indent
      { st with stack := pushNonterm false st.stack } with p | ⟨r0, e0, st1⟩
  · simp only [hL]
    refine ⟨?_, by simp⟩
    intro hc
    injection hc with hp
    exact hLmix (hp ▸ hL)
  · obtain ⟨hb1, hex⟩ := hLok r0 e0 st1 hL
    rcases e0 with _ | e
    · obtain ⟨tos1, hst1⟩ := hex rfl
      have hbal1 : balancedE tos1 := hb1 tos1 (by rw [hst1]; simp)
      obtain ⟨v, hred⟩ := reduceToItem_balanced tos1 hbal1
      simp only [hL, hst1, hred]
      refine ⟨by simp, ?_⟩
      intro res err st2 h
      simp only [Except.ok.injEq, Prod.mk.injEq] at h
      obtain ⟨-, -, hst⟩ := h
      rw [← hst]
      exact ⟨hb, fun _ => rfl⟩
    · simp only [hL]
      refine ⟨by simp, ?_⟩
      intro res err st2 h
      simp only [Except.ok.injEq, Prod.mk.injEq] at h
      obtain ⟨-, herr, hst⟩ := h
      rw [← hst]
      refine ⟨hb1, ?_⟩
      intro hn
      simp_all

theorem parseDict_step (n : Nat)
    (hDPairs : ∀ ind st tos rest, balStack st.stack → st.stack = tos :: rest →
      LoopOK rest (parseDictKeyValuePairs n ind st))
    (ind : Nat) (st : PState) (hb : balStack st.stack) :
    PResOK st (parseDict (n + 1) ind st) := by
  rw [parseDict]
  try dsimp only
  obtain ⟨hLmix, hLok⟩ := hDPairs st.token.indent
      { st with stack := pushNonterm true st.stack }
      { values := [], keys := some [] } st.stack
      (balStack_pushNonterm st.stack hb true) rfl
  rcases hL : parseDictKeyValuePairs n st.token.indent
      { st with stack := pushNonterm true st.stack } with p | ⟨r0, e0, st1⟩
  · simp only [hL]
    refine ⟨?_, by simp⟩
    intro hc
    injection hc with hp
    exact hLmix (hp ▸ hL)
  · obtain ⟨hb1, hex⟩ := hLok r0 e0 st1 hL
    rcases e0 with _ | e
    · obtain ⟨tos1, hst1⟩ := hex rfl
      have hbal1 : balancedE tos1 := hb1 tos1 (by rw [hst1]; simp)
      obtain ⟨v, hred⟩ := reduceToItem_balanced tos1 hbal1
      simp only [hL, hst1, hred]
      constructor
      · split <;> simp
      · intro res err st2 h
        split at h <;>
          (simp only [Except.ok.injEq, Prod.mk.injEq] at h
           obtain ⟨-, herr, hst⟩ := h
           rw [← hst]
           refine ⟨hb, ?_⟩
           intro hn
           first
           | rfl
           | simp_all)
    · simp only [hL]
      refine ⟨by simp, ?_⟩
      intro res err st2 h
      simp only [Except.ok.injEq, Prod.mk.injEq] at h
      obtain ⟨-, herr, hst⟩ := h
      rw [← hst]
      refine ⟨hb1, ?_⟩
      intro hn
      simp_all

theorem LoopOK_error (rest : List StackEntry) (p : GoPanic)
    (hp : p ≠ GoPanic.mixedItem) : LoopOK rest (.error p) := by
  refine ⟨?_, by simp⟩
  intro hc
  injection hc with h
  exact hp h

theorem LoopOK_okI (rest : List StackEntry) (res : Option GoVal)
    (err : Option NTError) (st1 : PState) (h1 : balStack st1.stack)
    (h2 : err = none → ∃ tos1, st1.stack = tos1 :: rest) :
    LoopOK rest (.ok (res, err, st1)) := by
  refine ⟨by simp, ?_⟩
  intro res2 err2 st2 h
  simp only [Except.ok.injEq, Prod.mk.injEq] at h
  obtain ⟨-, he, hst⟩ := h
  rw [← hst]
  exact ⟨h1, fun hn => h2 (he.symm ▸ hn)⟩

theorem parseListItems_step (n : Nat)
    (hLMulti : ∀ ind st, balStack st.stack →
      PResOK st (parseListItemMultiline n ind st))
    (hSelf : ∀ ind st tos rest, balStack st.stack → st.stack = tos :: rest →
      tos.keys = none → LoopOK rest (parseListItems n ind st))
    (ind : Nat) (st : PState) (tos : StackEntry) (rest : List StackEntry)
    (hb : balStack st.stack) (hs : st.stack = tos :: rest)
    (hkeys : tos.keys = none) :
    LoopOK rest (parseListItems (n + 1) ind st) := by
  have hbc : balStack (tos :: rest) := hs ▸ hb
  rw [parseListItems]
  try dsimp only
  split
  · have hPC : PResOK st
        (if st.token.tokenType = .listItem then parseListItem n ind st
         else parseListItemMultiline n ind st) := by
      split
      · exact parseListItem_ok n ind st hb
      · exact hLMulti ind st hb
    rcases hcallee : (if st.token.tokenType = .listItem then parseListItem n ind st
        else parseListItemMultiline n ind st) with p | ⟨value, err, st1⟩
    · simp only [hcallee]
      refine LoopOK_error rest p ?_
      intro hp
      exact hPC.1 (hp ▸ hcallee)
    · obtain ⟨hb1, hrest1⟩ := hPC.2 value err st1 hcallee
      rcases value with _ | v <;> rcases err with _ | e
      · -- none, none: break and report the values of the top frame
        have hseq : st1.stack = tos :: rest := (hrest1 rfl).trans hs
        simp only [hcallee, hseq]
        exact LoopOK_okI rest _ none st1 hb1 (fun _ => ⟨tos, hseq⟩)
      · -- none, some e
        simp only [hcallee]
        exact LoopOK_okI rest none (some e) st1 hb1 (fun hn => by cases hn)
      · -- some v, none: push and loop
        have hseq : st1.stack = tos :: rest := (hrest1 rfl).trans hs
        obtain ⟨hPmix, hPok⟩ := balStack_pushKV tos rest none v hbc (Or.inl hkeys)
        simp only [hcallee, hseq]
        rcases hpk : pushKV (tos :: rest) none v with p | ⟨stack2, b⟩
        · simp only [hpk]
          refine LoopOK_error rest p ?_
          intro hp
          exact hPmix (hp ▸ hpk)
        · simp only [hpk]
          obtain ⟨hb2, e1, he1, hkiff⟩ := hPok stack2 b hpk
          exact hSelf ind { st1 with stack := stack2 } e1 rest hb2 he1
            (hkiff.mpr hkeys)
      · -- some v, some e
        simp only [hcallee]
        exact LoopOK_okI rest none (some e) st1 hb1 (fun hn => by cases hn)
  · simp only [hs]
    exact LoopOK_okI rest _ none st hb (fun _ => ⟨tos, hs⟩)

theorem parseDictKeyValuePairs_step (n : Nat)
    (hDAny : ∀ ind st, balStack st.stack →
      KVResOK st (parseDictKeyAnyValuePair n ind st))
    (hDMulti : ∀ ind st, balStack st.stack →
      KVResOK st (parseDictKeyValuePairWithMultilineKey n ind st))
    (hSelf : ∀ ind st tos rest, balStack st.stack → st.stack = tos :: rest →
      LoopOK rest (parseDictKeyValuePairs n ind st))
    (ind : Nat) (st : PState) (tos : StackEntry) (rest : List StackEntry)
    (hb : balStack st.stack) (hs : st.stack = tos :: rest) :
    LoopOK rest (parseDictKeyValuePairs (n + 1) ind st) := by
  have hbc : balStack (tos :: rest) := hs ▸ hb
  rw [parseDictKeyValuePairs]
  try dsimp only
  split
  · have hPC : KVResOK st
        (match st.token.tokenType with
          | .inlineDictKeyValue => parseDictKeyValuePair n ind st
          | .inlineDictKey => parseDictKeyAnyValuePair n ind st
          | _ => parseDictKeyValuePairWithMultilineKey n ind st) := by
      split
      · exact parseDictKeyValuePair_ok n ind st hb
      · exact hDAny ind st hb
      · exact hDMulti ind st hb
    rcases hcallee : (match st.token.tokenType with
        | .inlineDictKeyValue => parseDictKeyValuePair n ind st
        | .inlineDictKey => parseDictKeyAnyValuePair n ind st
        | _ => parseDictKeyValuePairWithMultilineKey n ind st)
      with p | ⟨kv, err, st1⟩
    · simp only [hcallee]
      refine LoopOK_error rest p ?_
      intro hp
      exact hPC.1 (hp ▸ hcallee)
    · obtain ⟨hb1, hrest1, hkv⟩ := hPC.2 kv err st1 hcallee
      rcases hv : kv.value with _ | v
      · -- no value: break and report the keys of the top frame
        simp only [hcallee, hv]
        rcases hstk : st1.stack with _ | ⟨tos2, r2⟩
        · simp only [hstk]
          exact LoopOK_error rest .nilStack (by decide)
        · simp only [hstk]
          refine LoopOK_okI rest _ err st1 hb1 ?_
          intro hn
          exact ⟨tos, (hrest1 hn).trans hs⟩
      · rcases err with _ | e
        · -- a value without error: push the pair and loop
          have hseq : st1.stack = tos :: rest := (hrest1 rfl).trans hs
          have hkey : kv.key ≠ none := hkv (by rw [hv]; simp)
          obtain ⟨hPmix, hPok⟩ := balStack_pushKV tos rest kv.key v hbc
            (Or.inr hkey)
          simp only [hcallee, hv, hseq]
          norm_num
          rcases hpk : pushKV (tos :: rest) kv.key v with p | ⟨stack2, b⟩
          · simp only [hpk]
            refine LoopOK_error rest p ?_
            intro hp
            exact hPmix (hp ▸ hpk)
          · simp only [hpk]
            obtain ⟨hb2, e1, he1, -⟩ := hPok stack2 b hpk
            exact hSelf ind { st1 with stack := stack2 } e1 rest hb2 he1
        · -- a value with an error: abort
          simp only [hcallee, hv]
          norm_num
          exact LoopOK_okI rest none (some e) st1 hb1 (fun hn => by cases hn)
  · simp only [hs]
    exact LoopOK_okI rest _ none st hb (fun _ => ⟨tos, hs⟩)

theorem PResOK_error (st : PState) (p : GoPanic)
    (hp : p ≠ GoPanic.mixedItem) : PResOK st (.error p) := by
  refine ⟨?_, by simp⟩
  intro hc
  injection hc with h
  exact hp h

theorem PResOK_okI (st : PState) (res : Option GoVal) (err : Option NTError)
    (st1 : PState) (h1 : balStack st1.stack)
    (h2 : err = none → st1.stack = st.stack) :
    PResOK st (.ok (res, err, st1)) := by
  refine ⟨by simp, ?_⟩
  intro res2 err2 st2 h
  simp only [Except.ok.injEq, Prod.mk.injEq] at h
  obtain ⟨-, he, hst⟩ := h
  rw [← hst]
  exact ⟨h1, fun hn => h2 (he.symm ▸ hn)⟩

theorem parseAny_step (n : Nat)
    (hList : ∀ ind st, balStack st.stack → PResOK st (parseList n ind st))
    (hDict : ∀ ind st, balStack st.stack → PResOK st (parseDict n ind st))
    (ind : Nat) (st : PState) (hb : balStack st.stack) :
    PResOK st (parseAny (n + 1) ind st) := by
  have hb1 : balStack (nextTokenP st).stack := by
    rw [nextTokenP_stack]; exact hb
  rw [parseAny]
  try dsimp only
  split
  · exact PResOK_okI st none none st hb (fun _ => rfl)
  · split
    · exact parseMultiString_ok n st.token.indent st hb
    · -- inline list
      rcases hC : st.token.content.head? with _ | text
      · simp only [hC]
        exact PResOK_error st .indexRange (by decide)
      · simp only [hC]
        rcases hI : inlineParse 12 text with p | ⟨res, err⟩
        · simp only [hI]
          refine PResOK_error st p ?_
          intro hp
          exact inlineParse_noMixed 12 text (Or.inr rfl) (hp ▸ hI)
        · simp only [hI]
          rcases err with _ | e
          · norm_num
            split
            · exact PResOK_okI st res none (nextTokenP st) hb1
                (fun _ => nextTokenP_stack st)
            · exact PResOK_okI st none ((nextTokenP st).token.errField)
                (nextTokenP st) hb1 (fun _ => nextTokenP_stack st)
          · norm_num
            exact PResOK_okI st res (some e) st hb (fun hn => by cases hn)
    · -- inline dict
      rcases hC : st.token.content.head? with _ | text
      · simp only [hC]
        exact PResOK_error st .indexRange (by decide)
      · simp only [hC]
        rcases hI : inlineParse 11 text with p | ⟨res, err⟩
        · simp only [hI]
          refine PResOK_error st p ?_
          intro hp
          exact inlineParse_noMixed 11 text (Or.inl rfl) (hp ▸ hI)
        · simp only [hI]
          rcases err with _ | e
          · norm_num
            split
            · exact PResOK_okI st res none (nextTokenP st) hb1
                (fun _ => nextTokenP_stack st)
            · exact PResOK_okI st none ((nextTokenP st).token.errField)
                (nextTokenP st) hb1 (fun _ => nextTokenP_stack st)
          · norm_num
            exact PResOK_okI st res (some e) st hb (fun hn => by cases hn)
    · exact hList ind st hb
    · exact hList ind st hb
    · exact hDict ind st hb
    · exact hDict ind st hb
    · exact hDict ind st hb
    · exact PResOK_error st .unknownItem (by decide)

theorem parserSpecs (n : Nat) : ParserSpecs n := by
  induction n with
  | zero =>
    refine ⟨?_, ?_, ?_, ?_, ?_, ?_, ?_, ?_⟩
    · intro ind st _
      exact ⟨by simp [parseAny], fun res err st1 h => by simp [parseAny] at h⟩
    · intro ind st _
      exact ⟨by simp [parseList], fun res err st1 h => by simp [parseList] at h⟩
    · intro ind st tos rest _ _ _
      exact ⟨by simp [parseListItems],
        fun res err st1 h => by simp [parseListItems] at h⟩
    · intro ind st _
      exact ⟨by simp [parseListItemMultiline],
        fun res err st1 h => by simp [parseListItemMultiline] at h⟩
    · intro ind st _
      exact ⟨by simp [parseDict], fun res err st1 h => by simp [parseDict] at h⟩
    · intro ind st tos rest _ _
      exact ⟨by simp [parseDictKeyValuePairs],
        fun res err st1 h => by simp [parseDictKeyValuePairs] at h⟩
    · intro ind st _
      exact ⟨by simp [parseDictKeyAnyValuePair],
        fun kv err st1 h => by simp [parseDictKeyAnyValuePair] at h⟩
    · intro ind st _
      exact ⟨by simp [parseDictKeyValuePairWithMultilineKey],
        fun kv err st1 h => by simp [parseDictKeyValuePairWithMultilineKey] at h⟩
  | succ n ih =>
    obtain ⟨ihAny, ihList, ihLItems, ihLMulti, ihDict, ihDPairs, ihDAny,
      ihDMulti⟩ := ih
    exact ⟨parseAny_step n ihList ihDict,
           parseList_step n ihLItems,
           parseListItems_step n ihLMulti ihLItems,
           parseListItemMultiline_step n ihAny,
           parseDict_step n ihDPairs,
           parseDictKeyValuePairs_step n ihDAny ihDMulti ihDPairs,
           parseDictKeyAnyValuePair_step n ihAny,
           parseDictKeyValuePairWithMultilineKey_step n ihAny⟩

theorem parseDocument_noMixed (n : Nat) (st : PState) (hb : balStack st.stack) :
    parseDocument n st ≠ .error .mixedItem := by
  match n with
  | 0 => simp [parseDocument]
  | n + 1 =>
    rw [parseDocument]
    try dsimp only
    obtain ⟨hAny, -⟩ := parserSpecs n
    have hb2 : balStack (nextTokenP (nextTokenP st)).stack := by
      rw [nextTokenP_stack, nextTokenP_stack]; exact hb
    obtain ⟨hAmix, -⟩ := hAny 0 (nextTokenP (nextTokenP st)) hb2
    split
    · simp
    · split
      · simp
      · split
        · simp
        · rcases hA : parseAny n 0 (nextTokenP (nextTokenP st))
            with p | ⟨res, err, st3⟩
          · simp only [hA]
            intro hc
            injection hc with hp
            exact hAmix (hp ▸ hA)
          · simp only [hA]
            split <;> simp

theorem goParse_noMixed (input : Option String) (opts : List NTOption)
    (fuel : Nat) : goParse input opts fuel ≠ .error .mixedItem := by
  unfold goParse
  rcases input with _ | doc
  · rcases hOpt : applyOptions "" opts with e | t <;> simp [hOpt]
  · unfold goParseLines
    rcases hOpt : applyOptions "" opts with e | t
    · simp [hOpt]
    · simp only [hOpt]
      have hd := parseDocument_noMixed fuel
        { tokens := scanTokensL (splitLines doc.data) }
        (by intro f hf; simp at hf)
      rcases hD : parseDocument fuel
          { tokens := scanTokensL (splitLines doc.data) }
        with p | ⟨res, err, stf⟩
      · simp only [hD]
        intro hc
        injection hc with hp
        exact hd (hp ▸ hD)
      · simp only [hD]
        split <;> simp

/-- C9: For every input document and every stack frame reduced during a parse
(by the line-level parser or by the inline automaton), a frame carrying a key
list has as many keys as values at reduction time; consequently the "mixed
content" internal fault (the panic branch in ReduceToItem) is unreachable on
every parse run: `Parse` never panics with mixed content, and neither does
the inline automaton started from either of its entry states. -/
theorem C9_no_mixed_content :
    (∀ (input : Option String) (opts : List NTOption) (fuel : Nat),
      goParse input opts fuel ≠ .error .mixedItem) ∧
    (∀ (initial : Int) (input : String), initial = 11 ∨ initial = 12 →
      inlineParse initial input ≠ .error .mixedItem) :=
  ⟨goParse_noMixed, fun initial input h => inlineParse_noMixed initial input h⟩

/-- Witness for C9 at concrete inputs. -/
theorem C9_no_mixed_content_witness :
    goParse (some "a: 1\nb: [x, {u: 1}, z]\n") [] 30 ≠ .error .mixedItem ∧
    inlineParse 12 "[x, {u: 1}, z]" ≠ .error .mixedItem :=
  ⟨C9_no_mixed_content.1 (some "a: 1\nb: [x, {u: 1}, z]\n") [] 30,
   C9_no_mixed_content.2 12 "[x, {u: 1}, z]" (Or.inr rfl)⟩
